import Mathlib

set_option maxHeartbeats 1000000

/-!
Verification development for the ReplisomeTracer numeric signal pipeline.

The Python sources are shallowly embedded:
* floats are modelled as rationals (`ℚ`); a possibly-missing (NaN) float is
  `Option ℚ`; the only square root in the pipeline (standard deviation) is
  modelled over `ℝ`;
* the Python dict `mod_positions` (insertion ordered, unique keys) is an
  association list `List (Int × Probs)` with append-on-new-key insertion;
* fallible code (the shared `ML` iterator raising `StopIteration`, indexing an
  empty tuple) returns `Option`;
* the `MM` tag string is represented after its purely lexical split
  (`MM.split(";")`, `entry.split(",")`) as a list of
  (modification-kind, relative-skip list) groups.
-/

/-- Per-position probability triple, the value type of `mod_positions`
(`{"BrdU": _, "EdU": _, "None": _}` in `parse_ml_mm`); `nomod` is the
`"None"` channel. -/
structure Probs where
  brdu : ℚ
  edu : ℚ
  nomod : ℚ
deriving Repr, DecidableEq, Inhabited

/-- The decoder's `mod_positions` dict: insertion-ordered association list. -/
abbrev ModMap := List (Int × Probs)

/-- The fresh entry `{"BrdU": 0, "EdU": 0, "None": 1}` created for a new key. -/
def initProbs : Probs := ⟨0, 0, 1⟩

/-- Dict lookup (`mod_positions[k]` / `k in mod_positions`). -/
def lookupPos : ModMap → Int → Option Probs
  | [], _ => none
  | (k, p) :: rest, q => if k = q then some p else lookupPos rest q

/-- `if abs_position not in mod_positions: mod_positions[abs_position] = {...}`:
append a fresh default entry when the key is absent. -/
def ensureKey (m : ModMap) (k : Int) : ModMap :=
  if (lookupPos m k).isSome then m else m ++ [(k, initProbs)]

/-- In-place update of the entry stored under key `k`
(`mod_positions[abs_position]["BrdU"] = prob` etc.). -/
def setField (m : ModMap) (k : Int) (f : Probs → Probs) : ModMap :=
  m.map (fun e => if e.1 = k then (e.1, f e.2) else e)

/-- One loop body of `parse_ml_mm`'s inner `for rel_pos in rel_positions` after
the byte has been fetched: create the entry if new, then store the probability
in the channel selected by the group's `mod_type`. -/
def recordML (mod_type : String) (m : ModMap) (pos : Int) (prob : ℚ) : ModMap :=
  if mod_type = "N+b?" then setField (ensureKey m pos) pos (fun p => { p with brdu := prob })
  else if mod_type = "N+e?" then setField (ensureKey m pos) pos (fun p => { p with edu := prob })
  else ensureKey m pos

/-- The inner loop of `parse_ml_mm` over one tag group: the running
`abs_position` advances by `rel_pos + 1` before each record and one byte of the
shared `ML` iterator is consumed per position; `none` models the
`StopIteration` escaping when the iterator is exhausted. -/
def stepGroup (mod_type : String) : List Int → Int → ModMap → List ℕ → Option (ModMap × List ℕ)
  | [], _, m, ml => some (m, ml)
  | rel :: rest, absPos, m, ml =>
    match ml with
    | [] => none
    | b :: ml' =>
      stepGroup mod_type rest (absPos + rel + 1)
        (recordML mod_type m (absPos + rel + 1) ((b : ℚ) / 255)) ml'

/-- The outer loop of `parse_ml_mm` over `mm_entries`; the absolute offset
restarts at 0 for each group while the `ML` iterator is shared across groups. -/
def parseGroupsAux : List (String × List Int) → ModMap → List ℕ → Option (ModMap × List ℕ)
  | [], m, ml => some (m, ml)
  | (mt, rels) :: rest, m, ml =>
    match stepGroup mt rels 0 m ml with
    | none => none
    | some (m', ml') => parseGroupsAux rest m' ml'

/-- Final per-entry pass: `mod_positions[pos]["None"] = max(0, 1 - BrdU - EdU)`. -/
def fixNone (p : Probs) : Probs := { p with nomod := max 0 (1 - p.brdu - p.edu) }

/-- The final loop of `parse_ml_mm` recomputing the `"None"` channel. -/
def recomputeNone (m : ModMap) : ModMap := m.map (fun e => (e.1, fixNone e.2))

/-- Total number of relative positions across all tag groups. -/
def totalPositions (entries : List (String × List Int)) : ℕ :=
  (entries.map (fun e => e.2.length)).sum

/-- `parse_ml_mm(MM, ML)` of `slidingWindowsBedgraphs_utils.py`, with the `MM`
string already split into (kind, relative positions) groups. -/
def parse_ml_mm (entries : List (String × List Int)) (ML : List ℕ) : Option ModMap :=
  (parseGroupsAux entries [] ML).map (fun r => recomputeNone r.1)

/-! ### Spec-side decoder (for the refinement claim C1)

Modelled from the spec's words (§4.1 Algorithm), deliberately independent of
the implementation's association list: the mapping is a function
`Int → Option Probs`, and the shared probability-byte iterator is an explicit
cursor into the byte sequence as §9's design note describes. -/

/-- Modelled from the spec: record a probability into the matching channel of
the offset's entry, creating a fresh `{BrdU: 0, EdU: 0, None: 1}` entry if the
offset is new; unrecognized kinds leave the entry's channels untouched. -/
def specRecord (kind : String) (off : Int) (prob : ℚ)
    (f : Int → Option Probs) : Int → Option Probs :=
  fun k =>
    if k = off then
      let cur := (f off).getD initProbs
      some (if kind = "N+b?" then { cur with brdu := prob }
            else if kind = "N+e?" then { cur with edu := prob }
            else cur)
    else f k

/-- Modelled from the spec: for each relative skip in a group, advance the
running absolute offset by (skip + 1) before recording, then divide the next
consumed byte (at the shared cursor) by 255 and record it. Returns the updated
mapping and cursor. -/
def specGroup (kind : String) (bytes : List ℕ) :
    List Int → ℕ → Int → (Int → Option Probs) → (Int → Option Probs) × ℕ
  | [], cur, _, f => (f, cur)
  | r :: rs, cur, off, f =>
      specGroup kind bytes rs (cur + 1) (off + r + 1)
        (specRecord kind (off + r + 1) ((bytes.getD cur 0 : ℚ) / 255) f)

/-- Modelled from the spec: process the groups in declaration order, the
cursor shared across groups, the absolute offset restarting at 0 per group. -/
def specGroups (bytes : List ℕ) :
    List (String × List Int) → ℕ → (Int → Option Probs) → (Int → Option Probs)
  | [], _, f => f
  | (kind, rels) :: rest, cur, f =>
      let r := specGroup kind bytes rels cur 0 f
      specGroups bytes rest r.2 r.1

/-- Modelled from the spec: decode all groups, then recompute
`None = max(0, 1 − BrdU − EdU)` for every recorded offset. -/
def specDecode (entries : List (String × List Int)) (bytes : List ℕ) :
    Int → Option Probs :=
  fun k => (specGroups bytes entries 0 (fun _ => none) k).map fixNone

/-! ### Generic helpers: Python `range`, argmin/argmax, smoothing filters -/

/-- Fuel-driven unfolding of Python's `range(a, b, s)` for positive step. -/
def pyRangeAux (s : Int) : ℕ → Int → Int → List Int
  | 0, _, _ => []
  | fuel + 1, a, b => if a < b then a :: pyRangeAux s fuel (a + s) b else []

/-- Python `range(a, b, s)` (s > 0): `a, a+s, a+2s, ...` while `< b`. -/
def pyRange (a b s : Int) : List Int := pyRangeAux s (b - a).toNat a b

/-- Index of the first element satisfying `p` (mask + first-index idiom). -/
def firstIdxWhere {α : Type*} (p : α → Bool) : List α → Option ℕ
  | [] => none
  | a :: l => if p a then some 0 else (firstIdxWhere p l).map (· + 1)

/-- Minimum of a rational list (meaningful on nonempty input). -/
def minQ (l : List ℚ) : ℚ := l.foldl min (l.headD 0)

/-- Maximum of a rational list (meaningful on nonempty input). -/
def maxQ (l : List ℚ) : ℚ := l.foldl max (l.headD 0)

/-- pandas `Series.idxmin` on a positional index: first index of the minimum. -/
def argminIdx (l : List ℚ) : ℕ := (firstIdxWhere (fun v => decide (v = minQ l)) l).getD 0

/-- pandas `Series.idxmax` on a positional index: first index of the maximum. -/
def argmaxIdx (l : List ℚ) : ℕ := (firstIdxWhere (fun v => decide (v = maxQ l)) l).getD 0

/-- Clamp an index into `[0, n-1]` (scipy boundary mode `'nearest'`). -/
def clampIdx (n : ℕ) (j : Int) : ℕ := (min (max j 0) ((n : Int) - 1)).toNat

/-- One output sample of the uniform filter: the mean of the window of `size`
inputs at clamped indices `i - size/2 ... i + size - 1 - size/2`. -/
def ufElem (l : List ℚ) (size : ℕ) (i : ℕ) : ℚ :=
  (((List.range size).map (fun (j : ℕ) =>
      l.getD (clampIdx l.length ((i : Int) + (j : Int) - ((size / 2 : ℕ) : Int))) 0)).sum)
    / (size : ℚ)

/-- `scipy.ndimage.uniform_filter1d(input, size, mode='nearest')`. -/
def uf1d (l : List ℚ) (size : ℕ) : List ℚ :=
  (List.range l.length).map (ufElem l size)

/-- pandas `Series.rolling(window = 2*half+1, center=True, min_periods=1).mean()`
on NaN-free data: mean over in-bounds indices `[i-half, i+half]` (truncated at
the edges, where at least one sample always remains). -/
def rollingMeanC (half : ℕ) (l : List ℚ) : List ℚ :=
  (List.range l.length).map (fun i =>
    let lo := i - half
    let hi := min (l.length - 1) (i + half)
    let win := (List.range (hi + 1 - lo)).map (fun k => l.getD (lo + k) 0)
    win.sum / (win.length : ℚ))

/-- Float comparison `v > c` where `v` may be NaN (pandas mask semantics:
NaN compares false). -/
def optGTb (o : Option ℚ) (c : ℚ) : Bool :=
  match o with
  | none => false
  | some v => decide (c < v)

/-- Comparison `num / den ≤ bound` under the source's IEEE float semantics:
division by zero yields -inf (≤ bound true for negative numerator), +inf or
NaN (≤ bound false otherwise); nonzero denominators divide exactly. -/
def divLEQ (num den bound : ℚ) : Bool :=
  if den = 0 then decide (num < 0) else decide (num / den ≤ bound)

/-- pandas `idxmax` semantics over a projected value: first occurrence of the
maximum, `none` on the empty list. -/
def firstMaxBy {α : Type*} (f : α → ℚ) : List α → Option α
  | [] => none
  | a :: l =>
    match firstMaxBy f l with
    | none => some a
    | some b => if f a < f b then some b else some a

/-- Stable insertion of a track row into a list sorted by `x`. -/
def insertByX {α : Type*} (key : α → Int) (a : α) : List α → List α
  | [] => [a]
  | b :: l => if key a ≤ key b then a :: b :: l else b :: insertByX key a l

/-- Stable sort by an integer key (`DataFrame.sort_values`). -/
def sortByX {α : Type*} (key : α → Int) (rows : List α) : List α :=
  rows.foldr (insertByX key) []

/-! ### WindowAggregator (`compute_sliding_windows`) -/

/-- One decoded read-relative window row `(window_start, window_end,
brdu_freq, edu_freq)`. -/
structure WindowRow where
  wstart : Int
  wend : Int
  brduFreq : ℚ
  eduFreq : ℚ
deriving Repr, DecidableEq, Inhabited

/-- The inner accumulation loop of `compute_sliding_windows`:
`(brdu_sum, edu_sum, t_count)` over the positions of `[ws, we)` that have an
entry in `mod_positions`. -/
def windowStats (m : ModMap) (ws we : Int) : ℚ × ℚ × ℕ :=
  (pyRange ws we 1).foldl (fun acc pos =>
    match lookupPos m pos with
    | some p => (acc.1 + p.brdu, acc.2.1 + p.edu, acc.2.2 + 1)
    | none => acc) (0, 0, 0)

/-- `compute_sliding_windows(mod_positions, window_size, step_size)` of
`slidingWindowsBedgraphs_utils.py`. -/
def compute_sliding_windows (m : ModMap) (window_size step_size : Int) : List WindowRow :=
  let sortedPositions := List.insertionSort (· ≤ ·) (m.map (fun e => e.1))
  if sortedPositions.isEmpty then []
  else
    let min_pos := sortedPositions.headD 0
    let max_pos := sortedPositions.getLastD 0
    (pyRange min_pos (max_pos - window_size + 1) step_size).map (fun ws =>
      let st := windowStats m ws (ws + window_size)
      { wstart := ws, wend := ws + window_size,
        brduFreq := if 0 < st.2.2 then st.1 / (st.2.2 : ℚ) else 0,
        eduFreq := if 0 < st.2.2 then st.2.1 / (st.2.2 : ℚ) else 0 })

/-! ### CoordinateMapper (`convert_relative_to_abs_positions`) and `process_read` -/

/-- One output track row `(chromosome, start, end, brdu_freq, edu_freq)`. -/
structure GenomicWindow where
  chrom : String
  gstart : Int
  gend : Int
  brduFreq : ℚ
  eduFreq : ℚ
deriving Repr, DecidableEq, Inhabited

/-- `convert_relative_to_abs_positions` of `slidingWindowsBedgraphs_utils.py`;
`none` models the `IndexError` of `window_results[0]` on an empty sequence. -/
def convert_relative_to_abs_positions (reference_name : String)
    (reference_start reference_end : Int) (is_reverse : Bool)
    (window_results : List WindowRow) : Option (List GenomicWindow) :=
  match window_results with
  | [] => none
  | w0 :: _ =>
    let window_size := w0.wend - w0.wstart
    let starts := window_results.map (fun w =>
      if is_reverse then reference_end - 1 - w.wstart else reference_start + 1 + w.wstart)
    some (List.zipWith (fun s w =>
      { chrom := reference_name, gstart := s, gend := s + window_size,
        brduFreq := w.brduFreq, eduFreq := w.eduFreq }) starts window_results)

/-- The tuple produced by `extract_read_data` (plus the appended read name)
that `process_read` receives. -/
structure ReadData where
  reference_name : String
  reference_start : Int
  reference_end : Int
  is_reverse : Bool
  mm : List (String × List Int)
  ml : List ℕ
  window_size : Int
  step_size : Int
  read_name : String

/-- `process_read` of `brdu_edu_sliding_windows_from_bam.py` on a non-`None`
read tuple; `none` models an uncaught exception aborting the read's task. -/
def process_read (rd : ReadData) : Option (String × List GenomicWindow) := do
  let mod_positions ← parse_ml_mm rd.mm rd.ml
  let window_results := compute_sliding_windows mod_positions rd.window_size rd.step_size
  let abs_results ← convert_relative_to_abs_positions rd.reference_name rd.reference_start
      rd.reference_end rd.is_reverse window_results
  pure (rd.read_name, abs_results)

/-- A read whose tags decode to a single position: its window list is empty
for the default window size, yet `process_read` still reaches the coordinate
mapper with it. -/
def shortRead : ReadData :=
  { reference_name := "chr1", reference_start := 1000, reference_end := 1005,
    is_reverse := false, mm := [("N+b?", [0])], ml := [255],
    window_size := 100, step_size := 10, read_name := "read1" }

/-! ### TrackAligner (`align_diff_by_minimum`) -/

/-- A paired BrdU/EdU track, column-oriented as the pandas DataFrame built by
`read_bedgraph_tracks` (missing floats are `none`). -/
structure PairedTrack where
  chroms : List String
  starts : List Int
  ends : List Int
  brdus : List (Option ℚ)
  edus : List (Option ℚ)
  diffs : List (Option ℚ)

/-- The aligned track: the input columns plus `diff_roll` and `x`. -/
structure AlignedTrack where
  chroms : List String
  starts : List Int
  ends : List Int
  brdus : List (Option ℚ)
  edus : List (Option ℚ)
  diffs : List (Option ℚ)
  diff_roll : List ℚ
  x : List Int

/-- `align_diff_by_minimum(df, window_size=500)` of `plot_summary.py`: smooth
diff (NaN as 0), locate argmin/argmax, reverse only the start column when the
argmin's start exceeds the argmax's, then recompute the argmin's start and set
`x = start - min_start`. -/
def align_diff_by_minimum (t : PairedTrack) : AlignedTrack :=
  let droll := uf1d (t.diffs.map (fun o => o.getD 0)) 500
  let iMin := argminIdx droll
  let iMax := argmaxIdx droll
  let starts1 :=
    if t.starts.getD iMax 0 < t.starts.getD iMin 0 then t.starts.reverse else t.starts
  let min_start := starts1.getD iMin 0
  { chroms := t.chroms, starts := starts1, ends := t.ends, brdus := t.brdus,
    edus := t.edus, diffs := t.diffs, diff_roll := droll,
    x := starts1.map (fun s => s - min_start) }

/-! ### TrackSummarizer (`summarize_combined_tracks`) -/

/-- The distinct `x` keys of the pooled rows in ascending order
(pandas `groupby(..., sort=True)`). -/
def uniqueSortedKeys (rows : List (Int × Option ℚ)) : List Int :=
  (List.insertionSort (· ≤ ·) (rows.map (fun r => r.1))).dedup

/-- The non-NaN diff values of the group at key `x`, in row order
(pandas aggregations skip NaN). -/
def groupVals (rows : List (Int × Option ℚ)) (x : Int) : List ℚ :=
  rows.filterMap (fun r => if r.1 = x then r.2 else none)

/-- pandas `median` over the non-NaN values: midpoint (or mean of the two
midpoints) of the sorted values, NaN on an empty group. -/
def medianQ (vals : List ℚ) : Option ℚ :=
  let s := List.insertionSort (· ≤ ·) vals
  let n := s.length
  if n = 0 then none
  else if n % 2 = 1 then some (s.getD (n / 2) 0)
  else some ((s.getD (n / 2 - 1) 0 + s.getD (n / 2) 0) / 2)

/-- One output row of `summarize_combined_tracks` (NaN as `none`). -/
structure SummaryRow where
  x : Int
  median_diff : Option ℚ
  mean : Option ℚ
  sd : Option ℝ
  n : ℕ
  se : Option ℝ
  ci_lower : Option ℝ
  ci_upper : Option ℝ

/-- The summary row of one `x` group: median/mean/std(ddof=1)/count of the
group's diff values, then `se = sd / sqrt(n)` and the 95% normal confidence
interval `mean ± 1.96·se`; NaN (`none`) propagates through the arithmetic as
in the vectorized pandas expressions. -/
noncomputable def summaryAt (rows : List (Int × Option ℚ)) (x : Int) : SummaryRow :=
  let vals := groupVals rows x
  let n := vals.length
  let meanv : Option ℚ := if n = 0 then none else some (vals.sum / (n : ℚ))
  let sd : Option ℝ :=
    if 2 ≤ n then
      some (Real.sqrt
        (((vals.map (fun v => ((v : ℝ) - ((vals.sum / (n : ℚ) : ℚ) : ℝ)) ^ 2)).sum) / ((n : ℝ) - 1)))
    else none
  let se : Option ℝ := sd.map (fun s => s / Real.sqrt (n : ℝ))
  let ci_lower : Option ℝ :=
    match meanv, se with
    | some mv, some e => some ((mv : ℝ) - 196 / 100 * e)
    | _, _ => none
  let ci_upper : Option ℝ :=
    match meanv, se with
    | some mv, some e => some ((mv : ℝ) + 196 / 100 * e)
    | _, _ => none
  { x := x, median_diff := medianQ vals, mean := meanv, sd := sd, n := n,
    se := se, ci_lower := ci_lower, ci_upper := ci_upper }

/-- `summarize_combined_tracks(combined_df)` of `plot_summary.py`: one summary
row per distinct `x`, in ascending `x` order. -/
noncomputable def summarize_combined_tracks (rows : List (Int × Option ℚ)) : List SummaryRow :=
  (uniqueSortedKeys rows).map (summaryAt rows)

/-! ### BoundaryDetector — aggregate variant (`detect_signal_boundaries`) -/

/-- The three boundary columns added by either detector (NaN as `none`). -/
structure Bounds where
  edu_start : Option Int
  brdu_start : Option Int
  brdu_end : Option Int
deriving Repr, DecidableEq

/-- `uniform_filter1d(median_diff.fillna(0), size=101, mode='nearest')` over a
(x, median_diff) row list. -/
def ag_roll (rows : List (Int × Option ℚ)) : List ℚ :=
  uf1d (rows.map (fun r => r.2.getD 0)) 101

/-- `edu_start`: x of the first row whose smoothed median_diff is < -0.1. -/
def ag_edu_start (rows : List (Int × Option ℚ)) : Option Int :=
  ((rows.zip (ag_roll rows)).find? (fun p => decide (p.2 < -(1 / 10)))).map (fun p => p.1.1)

/-- `brdu_start`: x of the first row with x ≥ edu_start and raw
median_diff > 0 (NaN compares false). -/
def ag_brdu_start (rows : List (Int × Option ℚ)) : Option Int :=
  match ag_edu_start rows with
  | none => none
  | some e => (rows.find? (fun r => decide (e ≤ r.1) && optGTb r.2 0)).map (fun r => r.1)

/-- `later_points`: the rows with x > brdu_start + 100, in order. -/
def ag_later (rows : List (Int × Option ℚ)) (b : Int) : List (Int × Option ℚ) :=
  rows.filter (fun r => decide (b + 100 < r.1))

/-- `brdu_end`: x of the first later row whose re-smoothed (over the restricted
subsequence only) median_diff is ≤ 0.01. -/
def ag_brdu_end (rows : List (Int × Option ℚ)) : Option Int :=
  match ag_brdu_start rows with
  | none => none
  | some b =>
    let later := ag_later rows b
    ((later.zip (ag_roll later)).find? (fun p => decide (p.2 ≤ 1 / 100))).map (fun p => p.1.1)

/-- `detect_signal_boundaries(summary_df)` of `plot_summary.py`, reduced to
the three boundary values it appends as constant columns. -/
def detect_signal_boundaries (rows : List (Int × Option ℚ)) : Bounds :=
  ⟨ag_edu_start rows, ag_brdu_start rows, ag_brdu_end rows⟩

/-! ### BoundaryDetector — single-track variant (`edu_boundaries_detect`) -/

/-- One aligned-track row as used by `edu_boundaries_detect`: relative
position `x`, raw `diff` and raw `BrdU` (NaN as `none`). -/
structure TrackRow where
  x : Int
  diff : Option ℚ
  brdu : Option ℚ
deriving Repr, DecidableEq, Inhabited

/-- Step 1 of `edu_boundaries_detect`: `sort_values("x")`. -/
def stSorted (rows : List TrackRow) : List TrackRow := sortByX (fun r => r.x) rows

/-- `smoothed_diff = uniform_filter1d(diff.fillna(0), size=101, mode='nearest')`. -/
def stSmoothed (rows : List TrackRow) : List ℚ :=
  uf1d ((stSorted rows).map (fun r => r.diff.getD 0)) 101

/-- `edu_start`: x of the first sorted row with smoothed_diff < -0.1 and
-10000 < x < 0. -/
def st_edu_start (rows : List TrackRow) : Option Int :=
  (((stSorted rows).zip (stSmoothed rows)).find? (fun p =>
      decide (p.2 < -(1 / 10)) && decide (p.1.x < 0) && decide (-10000 < p.1.x))).map
    (fun p => p.1.x)

/-- `brdu_start`: x of the first sorted row with x ≥ edu_start, x > 0 and raw
diff > 0. -/
def st_brdu_start (rows : List TrackRow) : Option Int :=
  match st_edu_start rows with
  | none => none
  | some e =>
    ((stSorted rows).find? (fun r =>
        decide (e ≤ r.x) && decide (0 < r.x) && optGTb r.diff 0)).map (fun r => r.x)

/-- `df_filtered = summary_df.dropna(subset=["diff", "BrdU"])`: the sorted rows
with both values present, projected to `(x, diff, BrdU)`. -/
def stFiltered (rows : List TrackRow) : List (Int × ℚ × ℚ) :=
  (stSorted rows).filterMap (fun r =>
    match r.diff, r.brdu with
    | some d, some b => some (r.x, d, b)
    | _, _ => none)

/-- A filtered row annotated with its centered 201-sample rolling means
`diff_smooth` (`dsm`) and `BrdU_smooth` (`bsm`). -/
structure StAnn where
  x : Int
  dsm : ℚ
  bsm : ℚ
deriving Repr, DecidableEq, Inhabited

/-- The filtered frame with both smoothed columns attached. -/
def stAnnotated (rows : List TrackRow) : List StAnn :=
  ((stFiltered rows).zip
      ((rollingMeanC 100 ((stFiltered rows).map (fun t => t.2.1))).zip
        (rollingMeanC 100 ((stFiltered rows).map (fun t => t.2.2))))).map
    (fun p => ⟨p.1.1, p.2.1, p.2.2⟩)

/-- `window_df`: the filtered rows with brdu_start < x ≤ brdu_start + 15000. -/
def stWindow (rows : List TrackRow) (b : Int) : List StAnn :=
  (stAnnotated rows).filter (fun a => decide (b < a.x) && decide (a.x ≤ b + 15000))

/-- The incorporation peak: `window_df["BrdU_smooth"].idxmax()` (first of ties). -/
def stPeak (rows : List TrackRow) (b : Int) : Option StAnn :=
  firstMaxBy (fun a => a.bsm) (stWindow rows b)

/-- The filtered rows strictly after the peak's x. -/
def stAfterPeak (rows : List TrackRow) (px : Int) : List StAnn :=
  (stAnnotated rows).filter (fun a => decide (px < a.x))

/-- `drop_zone`: rows after the peak with diff_smooth ≤ 0.75 and
diff_smooth/BrdU_smooth ≤ 0.65 (float division semantics). -/
def stDropZone (rows : List TrackRow) (px : Int) : List StAnn :=
  (stAfterPeak rows px).filter (fun a => decide (a.dsm ≤ 3 / 4) && divLEQ a.dsm a.bsm (13 / 20))

/-- `brdu_end`: x of the first drop-zone row; NaN when brdu_start is NaN, the
15000-bp window is empty, or the drop zone is empty. -/
def st_brdu_end (rows : List TrackRow) : Option Int :=
  match st_brdu_start rows with
  | none => none
  | some b =>
    match stPeak rows b with
    | none => none
    | some p => ((stDropZone rows p.x).head?).map (fun a => a.x)

/-- `edu_boundaries_detect(summary_df)` of `single_pair_boundary.py`, reduced
to the three boundary values it appends as constant columns. -/
def edu_boundaries_detect (rows : List TrackRow) : Bounds :=
  ⟨st_edu_start rows, st_brdu_start rows, st_brdu_end rows⟩

/-! ### Auxiliary notions for the unknown-kind claim (C9) -/

/-- The absolute offsets visited by one tag group started at offset `off`. -/
def groupOffsets : Int → List Int → List Int
  | _, [] => []
  | off, r :: rs => (off + r + 1) :: groupOffsets (off + r + 1) rs

/-- `m2` extends `m1`: every key of `m1` holds the same value in `m2`, and any
extra key of `m2` holds the untouched default entry. -/
def mapExtends (m1 m2 : ModMap) : Prop :=
  ∀ k, lookupPos m2 k = lookupPos m1 k ∨
    (lookupPos m1 k = none ∧ lookupPos m2 k = some initProbs)

/-- All stored channel probabilities are nonnegative. -/
def mapNonneg (m : ModMap) : Prop := ∀ e ∈ m, 0 ≤ e.2.brdu ∧ 0 ≤ e.2.edu

/-- A concrete aligned-track input on which the single-track detector finds
all three boundaries. -/
def sampleTrack : List TrackRow :=
  [⟨-5, some (-100), some 0⟩, ⟨1, some 1, some 10⟩, ⟨3, some 1, some 1⟩,
   ⟨5, some (-1), some 1⟩]

/-- A concrete (x, median_diff) summary input on which the aggregate detector
finds all three boundaries. -/
def sampleSummary : List (Int × Option ℚ) :=
  [(-5, some (-100)), (0, some 1), (200, some 0)]

/-! ### Lookup lemmas for the association-list dict -/

theorem lookupPos_append (m₁ m₂ : ModMap) (k : Int) :
    lookupPos (m₁ ++ m₂) k =
      match lookupPos m₁ k with
      | some v => some v
      | none => lookupPos m₂ k := by
  induction m₁ with
  | nil => simp [lookupPos]
  | cons e rest ih =>
    obtain ⟨k', p⟩ := e
    by_cases h : k' = k <;> simp [lookupPos, h, ih]

theorem lookupPos_cons (k' : Int) (p : Probs) (rest : ModMap) (k : Int) :
    lookupPos ((k', p) :: rest) k = if k' = k then some p else lookupPos rest k := rfl

theorem lookupPos_ensureKey (m : ModMap) (k0 k : Int) :
    lookupPos (ensureKey m k0) k =
      if k = k0 then some ((lookupPos m k0).getD initProbs) else lookupPos m k := by
  unfold ensureKey
  rcases hm : lookupPos m k0 with _ | v
  · simp only [hm, Option.isSome_none, Bool.false_eq_true, if_false]
    rw [lookupPos_append]
    by_cases h : k = k0
    · subst h; simp [hm, lookupPos]
    · rcases hk : lookupPos m k with _ | w
      · simp [lookupPos, h, Ne.symm h, hk]
      · simp [hk, h]
  · simp only [hm, Option.isSome_some, if_true]
    by_cases h : k = k0
    · subst h; simp [hm]
    · simp [h]

theorem setField_cons (k' : Int) (p : Probs) (rest : ModMap) (k0 : Int) (f : Probs → Probs) :
    setField ((k', p) :: rest) k0 f =
      (if k' = k0 then (k', f p) else (k', p)) :: setField rest k0 f := by
  by_cases h : k' = k0 <;> simp [setField, h]

theorem lookupPos_setField (m : ModMap) (k0 k : Int) (f : Probs → Probs) :
    lookupPos (setField m k0 f) k =
      if k = k0 then (lookupPos m k0).map f else lookupPos m k := by
  induction m with
  | nil => simp [setField, lookupPos]
  | cons e rest ih =>
    obtain ⟨k', p⟩ := e
    rw [setField_cons]
    by_cases h : k' = k0
    · subst h
      by_cases hk : k' = k
      · subst hk
        simp [lookupPos_cons]
      · have hne : ¬ k = k' := fun hh => hk hh.symm
        simp [lookupPos_cons, hk, hne, ih]
    · by_cases hk : k' = k
      · subst hk
        simp [lookupPos_cons, h]
      · have hne : ¬ k = k' := fun hh => hk hh.symm
        simp [lookupPos_cons, h, hk, ih]

/-- The channel update selected by a group kind (the if/elif of the source). -/
def chanApply (kind : String) (prob : ℚ) (p : Probs) : Probs :=
  if kind = "N+b?" then { p with brdu := prob }
  else if kind = "N+e?" then { p with edu := prob }
  else p

theorem lookupPos_recordML (kind : String) (m : ModMap) (pos : Int) (prob : ℚ) (k : Int) :
    lookupPos (recordML kind m pos prob) k =
      if k = pos then some (chanApply kind prob ((lookupPos m pos).getD initProbs))
      else lookupPos m k := by
  unfold recordML chanApply
  by_cases hb : kind = "N+b?"
  · rw [if_pos hb, if_pos hb, lookupPos_setField]
    by_cases h : k = pos <;> simp [h, lookupPos_ensureKey]
  · by_cases he : kind = "N+e?"
    · rw [if_neg hb, if_neg hb, if_pos he, if_pos he, lookupPos_setField]
      by_cases h : k = pos <;> simp [h, lookupPos_ensureKey]
    · rw [if_neg hb, if_neg hb, if_neg he, if_neg he, lookupPos_ensureKey]

theorem specRecord_eq (kind : String) (off : Int) (prob : ℚ)
    (f : Int → Option Probs) (k : Int) :
    specRecord kind off prob f k =
      if k = off then some (chanApply kind prob ((f off).getD initProbs)) else f k := by
  unfold specRecord chanApply
  by_cases h : k = off <;> simp [h]

/-! ### Byte-consumption bookkeeping for the shared ML iterator -/

theorem drop_eq_getD_cons : ∀ (l : List ℕ) (i : ℕ), i < l.length →
    l.drop i = l.getD i 0 :: l.drop (i + 1) := by
  intro l
  induction l with
  | nil => intro i h; simp at h
  | cons a rest ih =>
    intro i h
    cases i with
    | zero => simp
    | succ j =>
      have hj : j < rest.length := by simpa using h
      simpa using ih j hj

theorem specGroup_cursor (kind : String) (bytes : List ℕ) :
    ∀ (rels : List Int) (cur : ℕ) (off : Int) (f : Int → Option Probs),
      (specGroup kind bytes rels cur off f).2 = cur + rels.length := by
  intro rels
  induction rels with
  | nil => intro cur off f; simp [specGroup]
  | cons r rs ih =>
    intro cur off f
    rw [specGroup, ih]
    simp
    omega

theorem stepGroup_spec (kind : String) (bytes : List ℕ) :
    ∀ (rels : List Int) (cur : ℕ) (off : Int) (m : ModMap) (f : Int → Option Probs),
      (∀ k, lookupPos m k = f k) → cur + rels.length ≤ bytes.length →
      ∃ m', stepGroup kind rels off m (bytes.drop cur) = some (m', bytes.drop (cur + rels.length)) ∧
        ∀ k, lookupPos m' k = (specGroup kind bytes rels cur off f).1 k := by
  intro rels
  induction rels with
  | nil =>
    intro cur off m f hf _
    exact ⟨m, by simp [stepGroup], by simpa [specGroup] using hf⟩
  | cons r rs ih =>
    intro cur off m f hf hlen
    simp only [List.length_cons] at hlen
    have hcur : cur < bytes.length := by omega
    rw [drop_eq_getD_cons bytes cur hcur]
    rw [stepGroup]
    have hf' : ∀ k, lookupPos (recordML kind m (off + r + 1) ((bytes.getD cur 0 : ℚ) / 255)) k =
        specRecord kind (off + r + 1) ((bytes.getD cur 0 : ℚ) / 255) f k := by
      intro k
      rw [lookupPos_recordML, specRecord_eq, hf (off + r + 1), hf k]
    have hlen' : (cur + 1) + rs.length ≤ bytes.length := by omega
    obtain ⟨m', hm', hlk⟩ := ih (cur + 1) (off + r + 1)
      (recordML kind m (off + r + 1) ((bytes.getD cur 0 : ℚ) / 255))
      (specRecord kind (off + r + 1) ((bytes.getD cur 0 : ℚ) / 255) f) hf' hlen'
    refine ⟨m', ?_, ?_⟩
    · rw [hm']
      have harith : cur + 1 + rs.length = cur + (rs.length + 1) := by omega
      rw [harith]
      simp [List.length_cons]
    · intro k
      rw [hlk k]
      rfl

theorem parseGroupsAux_spec (bytes : List ℕ) :
    ∀ (entries : List (String × List Int)) (cur : ℕ) (m : ModMap) (f : Int → Option Probs),
      (∀ k, lookupPos m k = f k) → cur + totalPositions entries ≤ bytes.length →
      ∃ m', parseGroupsAux entries m (bytes.drop cur) =
          some (m', bytes.drop (cur + totalPositions entries)) ∧
        ∀ k, lookupPos m' k = specGroups bytes entries cur f k := by
  intro entries
  induction entries with
  | nil =>
    intro cur m f hf _
    exact ⟨m, by simp [parseGroupsAux, totalPositions], by simpa [specGroups] using hf⟩
  | cons e rest ih =>
    intro cur m f hf hlen
    obtain ⟨kind, rels⟩ := e
    have hlen1 : cur + rels.length ≤ bytes.length := by
      simp [totalPositions] at hlen ⊢; omega
    obtain ⟨m1, hm1, hlk1⟩ := stepGroup_spec kind bytes rels cur 0 m f hf hlen1
    have hlen2 : (cur + rels.length) + totalPositions rest ≤ bytes.length := by
      simp [totalPositions] at hlen ⊢; omega
    obtain ⟨m2, hm2, hlk2⟩ := ih (cur + rels.length) m1
      (specGroup kind bytes rels cur 0 f).1 hlk1 hlen2
    refine ⟨m2, ?_, ?_⟩
    · have harith : cur + rels.length + totalPositions rest =
          cur + totalPositions ((kind, rels) :: rest) := by
        simp only [totalPositions, List.map_cons, List.sum_cons]
        omega
      rw [parseGroupsAux, hm1]
      show parseGroupsAux rest m1 (List.drop (cur + rels.length) bytes) = _
      rw [hm2, harith]
    · intro k
      rw [hlk2 k]
      rw [specGroups]
      rw [specGroup_cursor]

theorem lookupPos_recomputeNone (m : ModMap) (k : Int) :
    lookupPos (recomputeNone m) k = (lookupPos m k).map fixNone := by
  induction m with
  | nil => simp [recomputeNone, lookupPos]
  | cons e rest ih =>
    obtain ⟨k', p⟩ := e
    by_cases h : k' = k
    · simp [recomputeNone, lookupPos, h]
    · simp only [recomputeNone, List.map_cons] at ih ⊢
      simp [lookupPos, h, ih]

/-! ### Error behaviour of the decoder (claim C8) -/

theorem stepGroup_none_iff (kind : String) :
    ∀ (rels : List Int) (off : Int) (m : ModMap) (ml : List ℕ),
      (stepGroup kind rels off m ml = none ↔ ml.length < rels.length) := by
  intro rels
  induction rels with
  | nil => intro off m ml; simp [stepGroup]
  | cons r rs ih =>
    intro off m ml
    cases ml with
    | nil => simp [stepGroup]
    | cons b ml' =>
      rw [stepGroup]
      simp only [List.length_cons]
      rw [ih]
      omega

theorem stepGroup_some_snd (kind : String) :
    ∀ (rels : List Int) (off : Int) (m : ModMap) (ml : List ℕ) (m' : ModMap) (ml' : List ℕ),
      stepGroup kind rels off m ml = some (m', ml') → ml' = ml.drop rels.length := by
  intro rels
  induction rels with
  | nil =>
    intro off m ml m' ml' h
    simp [stepGroup] at h
    simp [h.2]
  | cons r rs ih =>
    intro off m ml m' ml' h
    cases ml with
    | nil => simp [stepGroup] at h
    | cons b rest =>
      rw [stepGroup] at h
      simpa using ih _ _ _ _ _ h

theorem parseGroupsAux_none_iff :
    ∀ (entries : List (String × List Int)) (m : ModMap) (ml : List ℕ),
      (parseGroupsAux entries m ml = none ↔ ml.length < totalPositions entries) := by
  intro entries
  induction entries with
  | nil => intro m ml; simp [parseGroupsAux, totalPositions]
  | cons e rest ih =>
    intro m ml
    obtain ⟨kind, rels⟩ := e
    rw [parseGroupsAux]
    rcases hs : stepGroup kind rels 0 m ml with _ | p
    · have hlt : ml.length < rels.length := (stepGroup_none_iff kind rels 0 m ml).mp hs
      simp only [true_iff]
      simp [totalPositions]
      omega
    · obtain ⟨m1, ml1⟩ := p
      have hge : ¬ ml.length < rels.length := by
        intro hlt
        rw [(stepGroup_none_iff kind rels 0 m ml).mpr hlt] at hs
        exact Option.noConfusion hs
      have hdrop := stepGroup_some_snd kind rels 0 m ml m1 ml1 hs
      rw [ih]
      subst hdrop
      simp [totalPositions]
      omega

/-- C1: for every well-formed tag/byte input (one byte per relative position),
`parse_ml_mm` computes exactly the spec's decoding (groups in declaration
order, per-group offset restarting at 0, offset advanced by skip+1 before
recording, probability next-byte/255 stored in the kind's channel, final
`None = max(0, 1 - BrdU - EdU)` pass), stated as pointwise agreement of the
resulting mapping with the spec-modelled decoder; and on the spec's concrete
example (single BrdU-kind group, skips [0,2,1], bytes [255,128,0]) it yields
offsets 1, 4, 6 with BrdU probabilities 1, 128/255, 0 and None 0, 127/255, 1. -/
theorem claim_C1 (entries : List (String × List Int)) (ML : List ℕ)
    (h : ML.length = totalPositions entries) :
    (∃ m, parse_ml_mm entries ML = some m ∧
        ∀ k, lookupPos m k = specDecode entries ML k)
    ∧ parse_ml_mm [("N+b?", [0, 2, 1])] [255, 128, 0] =
        some [(1, ⟨1, 0, 0⟩), (4, ⟨128/255, 0, 127/255⟩), (6, ⟨0, 0, 1⟩)] := by
  constructor
  · obtain ⟨m', hm', hlk⟩ := parseGroupsAux_spec ML entries 0 [] (fun _ => none)
      (fun _ => rfl) (by omega)
    rw [List.drop_zero] at hm'
    refine ⟨recomputeNone m', ?_, ?_⟩
    · rw [parse_ml_mm, hm']
      rfl
    · intro k
      rw [lookupPos_recomputeNone, hlk k]
      rfl
  · norm_num [parse_ml_mm, parseGroupsAux, stepGroup, recordML, ensureKey, setField,
      lookupPos, recomputeNone, fixNone, initProbs]

/-- Witness for C1: the general refinement statement applied at the concrete
well-formed example input. -/
theorem claim_C1_witness :
    ∃ m, parse_ml_mm [("N+b?", [0, 2, 1])] [255, 128, 0] = some m ∧
        ∀ k, lookupPos m k = specDecode [("N+b?", [0, 2, 1])] [255, 128, 0] k :=
  (claim_C1 [("N+b?", [0, 2, 1])] [255, 128, 0] (by decide)).1

/-- C8: the decoder fails (the shared byte iterator is exhausted, modelled as
`none`) exactly when the probability-byte sequence holds fewer bytes than the
total number of relative positions over all groups; with at least as many
bytes, decoding completes and returns a mapping. -/
theorem claim_C8 (entries : List (String × List Int)) (ML : List ℕ) :
    (parse_ml_mm entries ML = none ↔ ML.length < totalPositions entries)
    ∧ (totalPositions entries ≤ ML.length → ∃ m, parse_ml_mm entries ML = some m) := by
  have h := parseGroupsAux_none_iff entries [] ML
  constructor
  · unfold parse_ml_mm
    rcases hp : parseGroupsAux entries [] ML with _ | p
    · rw [hp] at h
      simpa using h
    · rw [hp] at h
      simp at h
      simp [h]
  · intro hge
    unfold parse_ml_mm
    rcases hp : parseGroupsAux entries [] ML with _ | p
    · rw [hp] at h
      simp at h
      omega
    · exact ⟨recomputeNone p.1, by simp⟩

/-- Witness for C8: with exactly enough bytes the example input decodes. -/
theorem claim_C8_witness :
    ∃ m, parse_ml_mm [("N+b?", [0, 2, 1])] [255, 128, 0] = some m :=
  (claim_C8 [("N+b?", [0, 2, 1])] [255, 128, 0]).2 (by decide)

/-! ### Lemmas on the Python range model -/

theorem pyRangeAux_irrel (s : Int) (hs : 0 < s) :
    ∀ (f1 f2 : ℕ) (a b : Int), (b - a).toNat ≤ f1 → (b - a).toNat ≤ f2 →
      pyRangeAux s f1 a b = pyRangeAux s f2 a b := by
  intro f1
  induction f1 with
  | zero =>
    intro f2 a b h1 h2
    have hab : ¬ a < b := by omega
    cases f2 with
    | zero => rfl
    | succ g => simp [pyRangeAux, hab]
  | succ f ih =>
    intro f2 a b h1 h2
    cases f2 with
    | zero =>
      have hab : ¬ a < b := by omega
      simp [pyRangeAux, hab]
    | succ g =>
      by_cases hab : a < b
      · simp only [pyRangeAux, if_pos hab]
        have hrec : (b - (a + s)).toNat ≤ f := by omega
        have hrec2 : (b - (a + s)).toNat ≤ g := by omega
        rw [ih g (a + s) b hrec hrec2]
      · simp [pyRangeAux, hab]

theorem pyRange_eq (a b s : Int) (hs : 0 < s) :
    pyRange a b s = if a < b then a :: pyRange (a + s) b s else [] := by
  by_cases hab : a < b
  · rw [if_pos hab]
    unfold pyRange
    rcases hn : (b - a).toNat with _ | n
    · omega
    · simp only [pyRangeAux, if_pos hab]
      congr 1
      exact pyRangeAux_irrel s hs n (b - (a + s)).toNat (a + s) b (by omega) le_rfl
  · rw [if_neg hab]
    unfold pyRange
    have h0 : (b - a).toNat = 0 := by omega
    rw [h0]
    rfl

theorem pyRange_empty (a b s : Int) (hs : 0 < s) (h : ¬ a < b) : pyRange a b s = [] := by
  rw [pyRange_eq a b s hs, if_neg h]

theorem mem_pyRange_mp (s : Int) (hs : 0 < s) :
    ∀ (n : ℕ) (a b z : Int), (b - a).toNat ≤ n → z ∈ pyRange a b s →
      ∃ k : ℕ, z = a + k * s ∧ z < b := by
  intro n
  induction n with
  | zero =>
    intro a b z hn hz
    rw [pyRange_eq a b s hs, if_neg (by omega)] at hz
    simp at hz
  | succ n ih =>
    intro a b z hn hz
    rw [pyRange_eq a b s hs] at hz
    by_cases hab : a < b
    · rw [if_pos hab] at hz
      rcases List.mem_cons.mp hz with h | h
      · exact ⟨0, by simpa using h, by omega⟩
      · obtain ⟨k, hk, hkb⟩ := ih (a + s) b z (by omega) h
        exact ⟨k + 1, by push_cast at hk ⊢; linarith, hkb⟩
    · rw [if_neg hab] at hz
      simp at hz

theorem mem_pyRange_mpr (s : Int) (hs : 0 < s) :
    ∀ (k : ℕ) (a b : Int), a + k * s < b → (a + k * s) ∈ pyRange a b s := by
  intro k
  induction k with
  | zero =>
    intro a b h
    simp only [Nat.cast_zero, zero_mul, add_zero] at h ⊢
    rw [pyRange_eq a b s hs, if_pos h]
    exact List.mem_cons_self _ _
  | succ k ih =>
    intro a b h
    have hsk : (0 : Int) ≤ k * s := by positivity
    have hab : a < b := by push_cast at h; nlinarith
    rw [pyRange_eq a b s hs, if_pos hab]
    refine List.mem_cons_of_mem _ ?_
    have harr : a + (k + 1 : ℕ) * s = (a + s) + k * s := by push_cast; ring
    rw [harr] at h ⊢
    exact ih (a + s) b h

theorem mem_pyRange (a b s z : Int) (hs : 0 < s) :
    z ∈ pyRange a b s ↔ ∃ k : ℕ, z = a + k * s ∧ z < b := by
  constructor
  · exact mem_pyRange_mp s hs (b - a).toNat a b z le_rfl
  · rintro ⟨k, rfl, hz⟩
    exact mem_pyRange_mpr s hs k a b hz

theorem pyRange_ge (a b s z : Int) (hs : 0 < s) (hz : z ∈ pyRange a b s) : a ≤ z := by
  obtain ⟨k, rfl, _⟩ := (mem_pyRange a b s z hs).mp hz
  have : (0 : Int) ≤ k * s := by positivity
  omega

theorem pyRange_chain (s : Int) (hs : 0 < s) :
    ∀ (n : ℕ) (a b : Int), (b - a).toNat ≤ n → (pyRange a b s).Chain' (· < ·) := by
  intro n
  induction n with
  | zero =>
    intro a b hn
    rw [pyRange_eq a b s hs, if_neg (by omega)]
    exact List.chain'_nil
  | succ n ih =>
    intro a b hn
    rw [pyRange_eq a b s hs]
    by_cases hab : a < b
    · rw [if_pos hab]
      refine List.chain'_cons'.mpr ⟨?_, ih (a + s) b (by omega)⟩
      intro y hy
      have hym : y ∈ pyRange (a + s) b s := by
        rcases hl : pyRange (a + s) b s with _ | ⟨c, t⟩
        · rw [hl] at hy; simp at hy
        · rw [hl] at hy; simp at hy; subst hy; exact hl ▸ List.mem_cons_self c t
      have := pyRange_ge (a + s) b s y hs hym
      omega
    · rw [if_neg hab]
      exact List.chain'_nil

/-! ### Lemmas on sorted key lists -/

theorem getLastD_mem {α : Type*} : ∀ (l : List α) (d : α), l ≠ [] → l.getLastD d ∈ l := by
  intro l
  induction l with
  | nil => intro d h; exact absurd rfl h
  | cons a rest ih =>
    intro d _
    rw [List.getLastD_cons]
    cases hr : rest with
    | nil => simp
    | cons b t =>
      have := ih a (by simp [hr])
      rw [hr] at this
      exact List.mem_cons_of_mem a (hr ▸ this)

theorem sorted_headD_le (l : List Int) (hl : l.Sorted (· ≤ ·)) :
    ∀ z ∈ l, l.headD 0 ≤ z := by
  cases l with
  | nil => intro z hz; simp at hz
  | cons a rest =>
    intro z hz
    rcases List.mem_cons.mp hz with rfl | hz
    · simp
    · simpa using List.rel_of_sorted_cons hl z hz

theorem sorted_le_getLastD : ∀ (l : List Int) (d : Int), l.Sorted (· ≤ ·) →
    ∀ z ∈ l, z ≤ l.getLastD d := by
  intro l
  induction l with
  | nil => intro d _ z hz; simp at hz
  | cons a rest ih =>
    intro d hl z hz
    rw [List.getLastD_cons]
    rcases List.mem_cons.mp hz with rfl | hzr
    · cases hr : rest with
      | nil => simp
      | cons b t =>
        have hmem : rest.getLastD z ∈ rest := getLastD_mem rest z (by simp [hr])
        have := List.rel_of_sorted_cons hl _ hmem
        simpa [hr] using this
    · exact ih a (List.Sorted.of_cons hl) z hzr

/-! ### Claim C2: the sliding-window aggregator -/

theorem stats_foldl_none (m : ModMap) :
    ∀ (ps : List Int) (acc : ℚ × ℚ × ℕ), (∀ pos ∈ ps, lookupPos m pos = none) →
      ps.foldl (fun acc pos =>
        match lookupPos m pos with
        | some p => (acc.1 + p.brdu, acc.2.1 + p.edu, acc.2.2 + 1)
        | none => acc) acc = acc := by
  intro ps
  induction ps with
  | nil => intro acc _; rfl
  | cons a t ih =>
    intro acc h
    have ha : lookupPos m a = none := h a (List.mem_cons_self a t)
    simp only [List.foldl_cons, ha]
    exact ih acc (fun pos hp => h pos (List.mem_cons_of_mem a hp))

theorem windowStats_no_positions (m : ModMap) (ws we : Int)
    (h : ∀ pos : Int, ws ≤ pos → pos < we → lookupPos m pos = none) :
    windowStats m ws we = (0, 0, 0) := by
  unfold windowStats
  refine stats_foldl_none m (pyRange ws we 1) (0, 0, 0) ?_
  intro pos hp
  obtain ⟨k, rfl, hlt⟩ := (mem_pyRange ws we 1 pos (by omega)).mp hp
  exact h _ (by omega) hlt

/-- C2: for a non-empty modification map and positive window and step sizes,
the aggregator's windows start exactly at min_pos, min_pos+step, ... for every
start ≤ max_pos − window_size (min_pos/max_pos being the least/greatest mapped
positions), in strictly ascending start order, each with end = start +
window_size; a window covering no mapped position has both frequencies exactly
0; and if min_pos + window_size > max_pos the result is empty. -/
theorem claim_C2 (m : ModMap) (w s : Int) (hm : m ≠ []) (hw : 0 < w) (hs : 0 < s) :
    let keys := m.map (fun e => e.1)
    let sortedKeys := List.insertionSort (· ≤ ·) keys
    let mn := sortedKeys.headD 0
    let mx := sortedKeys.getLastD 0
    (mn ∈ keys ∧ mx ∈ keys ∧ ∀ k ∈ keys, mn ≤ k ∧ k ≤ mx)
    ∧ (compute_sliding_windows m w s).map (fun r => r.wstart) = pyRange mn (mx - w + 1) s
    ∧ (∀ z : Int, (∃ r ∈ compute_sliding_windows m w s, r.wstart = z) ↔
        ∃ k : ℕ, z = mn + k * s ∧ z ≤ mx - w)
    ∧ (∀ r ∈ compute_sliding_windows m w s, r.wend = r.wstart + w)
    ∧ ((compute_sliding_windows m w s).map (fun r => r.wstart)).Chain' (· < ·)
    ∧ (∀ r ∈ compute_sliding_windows m w s,
        (∀ pos : Int, r.wstart ≤ pos → pos < r.wend → lookupPos m pos = none) →
        r.brduFreq = 0 ∧ r.eduFreq = 0)
    ∧ (mx < mn + w → compute_sliding_windows m w s = []) := by
  intro keys sortedKeys mn mx
  have hperm : List.Perm sortedKeys keys := List.perm_insertionSort _ _
  have hsorted : sortedKeys.Sorted (· ≤ ·) := List.sorted_insertionSort _ _
  have hkeysne : keys ≠ [] := by
    intro h
    exact hm (List.map_eq_nil_iff.mp h)
  have hsne : sortedKeys ≠ [] := by
    intro h
    apply hkeysne
    have := hperm.length_eq
    rw [h] at this
    exact List.length_eq_zero.mp this.symm
  have hmnmem : mn ∈ keys := by
    refine hperm.subset ?_
    cases hc : sortedKeys with
    | nil => exact absurd hc hsne
    | cons a t => simp [hc, mn]
  have hmxmem : mx ∈ keys := hperm.subset (getLastD_mem sortedKeys 0 hsne)
  have hbounds : ∀ k ∈ keys, mn ≤ k ∧ k ≤ mx := by
    intro k hk
    have hk' : k ∈ sortedKeys := hperm.symm.subset hk
    exact ⟨sorted_headD_le sortedKeys hsorted k hk', sorted_le_getLastD sortedKeys 0 hsorted k hk'⟩
  have hcompute : compute_sliding_windows m w s =
      (pyRange mn (mx - w + 1) s).map (fun ws =>
        { wstart := ws, wend := ws + w,
          brduFreq := if 0 < (windowStats m ws (ws + w)).2.2 then
              (windowStats m ws (ws + w)).1 / ((windowStats m ws (ws + w)).2.2 : ℚ) else 0,
          eduFreq := if 0 < (windowStats m ws (ws + w)).2.2 then
              (windowStats m ws (ws + w)).2.1 / ((windowStats m ws (ws + w)).2.2 : ℚ) else 0 }) := by
    unfold compute_sliding_windows
    have hie : (List.insertionSort (· ≤ ·) (m.map (fun e => e.1))).isEmpty = false := by
      cases hc : List.insertionSort (· ≤ ·) (m.map (fun e => e.1)) with
      | nil => exact absurd hc hsne
      | cons a t => rfl
    simp only [hie, Bool.false_eq_true, if_false]
  refine ⟨⟨hmnmem, hmxmem, hbounds⟩, ?_, ?_, ?_, ?_, ?_, ?_⟩
  · rw [hcompute, List.map_map]
    exact List.map_id'' (fun _ => rfl) _
  · intro z
    rw [hcompute]
    constructor
    · rintro ⟨r, hr, rfl⟩
      obtain ⟨ws, hws, rfl⟩ := List.mem_map.mp hr
      obtain ⟨k, rfl, hlt⟩ := (mem_pyRange mn (mx - w + 1) s _ hs).mp hws
      refine ⟨k, rfl, ?_⟩
      show mn + (k : Int) * s ≤ mx - w
      omega
    · rintro ⟨k, rfl, hle⟩
      refine ⟨_, List.mem_map_of_mem _ ((mem_pyRange mn (mx - w + 1) s _ hs).mpr
        ⟨k, rfl, by omega⟩), rfl⟩
  · intro r hr
    rw [hcompute] at hr
    obtain ⟨ws, _, rfl⟩ := List.mem_map.mp hr
    rfl
  · rw [hcompute, List.map_map]
    have : ((fun r => WindowRow.wstart r) ∘ (fun ws =>
        ({ wstart := ws, wend := ws + w,
           brduFreq := if 0 < (windowStats m ws (ws + w)).2.2 then
               (windowStats m ws (ws + w)).1 / ((windowStats m ws (ws + w)).2.2 : ℚ) else 0,
           eduFreq := if 0 < (windowStats m ws (ws + w)).2.2 then
               (windowStats m ws (ws + w)).2.1 / ((windowStats m ws (ws + w)).2.2 : ℚ) else 0 }
          : WindowRow))) = id := by
      funext ws
      rfl
    rw [this, List.map_id]
    exact pyRange_chain s hs (mx - w + 1 - mn).toNat mn (mx - w + 1) le_rfl
  · intro r hr hno
    rw [hcompute] at hr
    obtain ⟨ws, _, rfl⟩ := List.mem_map.mp hr
    have hz := windowStats_no_positions m ws (ws + w) hno
    simp only [hz]
    norm_num
  · intro hlt
    rw [hcompute, pyRange_empty mn (mx - w + 1) s hs (by omega)]
    rfl

/-- Witness for C2: the window starts of a concrete three-position map with
window 3 and step 2 are exactly range(1, 7, 2). -/
theorem claim_C2_witness :
    (compute_sliding_windows [(1, ⟨1, 0, 0⟩), (9, ⟨0, 1, 0⟩), (3, ⟨0, 0, 1⟩)] 3 2).map
        (fun r => r.wstart) =
      pyRange 1 7 2 :=
  (claim_C2 [(1, ⟨1, 0, 0⟩), (9, ⟨0, 1, 0⟩), (3, ⟨0, 0, 1⟩)] 3 2 (by simp)
    (by decide) (by decide)).2.1

/-! ### Claim C3: the coordinate mapper -/

theorem getD_map_lt {α β : Type*} (f : α → β) (d : β) (d' : α) :
    ∀ (l : List α) (i : ℕ), i < l.length → (l.map f).getD i d = f (l.getD i d') := by
  intro l
  induction l with
  | nil => intro i h; simp at h
  | cons a t ih =>
    intro i h
    cases i with
    | zero => rfl
    | succ j => simpa using ih j (by simpa using h)

theorem zipWith_self_map {α β : Type*} (f : α → α → β) :
    ∀ l : List α, List.zipWith f l l = l.map (fun a => f a a) := by
  intro l
  induction l with
  | nil => rfl
  | cons a t ih => simp [ih]

/-- C3: on a non-empty window sequence the mapper emits one row per window;
with `r` the window's relative start, the absolute genomic start is
`reference_start + 1 + r` on the forward strand and `reference_end - 1 - r` on
the reverse strand, and on both strands the row's end is its start plus the
span of the first input window; chromosome and both frequencies are carried
through unchanged. -/
theorem claim_C3 (reference_name : String) (reference_start reference_end : Int)
    (is_reverse : Bool) (ws : List WindowRow) (hne : ws ≠ []) :
    ∃ out, convert_relative_to_abs_positions reference_name reference_start reference_end
        is_reverse ws = some out ∧
      out.length = ws.length ∧
      ∀ i : ℕ, i < ws.length →
        (out.getD i default).gstart =
          (if is_reverse then reference_end - 1 - (ws.getD i default).wstart
           else reference_start + 1 + (ws.getD i default).wstart) ∧
        (out.getD i default).gend =
          (out.getD i default).gstart + ((ws.headD default).wend - (ws.headD default).wstart) ∧
        (out.getD i default).chrom = reference_name ∧
        (out.getD i default).brduFreq = (ws.getD i default).brduFreq ∧
        (out.getD i default).eduFreq = (ws.getD i default).eduFreq := by
  cases ws with
  | nil => exact absurd rfl hne
  | cons w0 t =>
    refine ⟨(w0 :: t).map (fun w =>
      { chrom := reference_name,
        gstart := if is_reverse then reference_end - 1 - w.wstart
                  else reference_start + 1 + w.wstart,
        gend := (if is_reverse then reference_end - 1 - w.wstart
                 else reference_start + 1 + w.wstart) + (w0.wend - w0.wstart),
        brduFreq := w.brduFreq, eduFreq := w.eduFreq }), ?_, by simp, ?_⟩
    · show some _ = some _
      congr 1
      rw [List.zipWith_map_left, zipWith_self_map]
    · intro i hi
      rw [getD_map_lt _ default default (w0 :: t) i hi]
      refine ⟨rfl, rfl, rfl, rfl, rfl⟩

/-- Witness for C3: a concrete forward-strand read with reference_start 1000
and window-relative start 50 (genomic start 1051 per the mapper's formula). -/
theorem claim_C3_witness :
    ∃ out, convert_relative_to_abs_positions "chr1" 1000 2000 false
        [⟨50, 70, 1/2, 0⟩] = some out ∧
      out.length = ([⟨50, 70, 1/2, 0⟩] : List WindowRow).length ∧
      ∀ i : ℕ, i < ([⟨50, 70, 1/2, 0⟩] : List WindowRow).length →
        (out.getD i default).gstart =
          (if false then 2000 - 1 - (([⟨50, 70, 1/2, 0⟩] : List WindowRow).getD i default).wstart
           else 1000 + 1 + (([⟨50, 70, 1/2, 0⟩] : List WindowRow).getD i default).wstart) ∧
        (out.getD i default).gend =
          (out.getD i default).gstart +
            ((([⟨50, 70, 1/2, 0⟩] : List WindowRow).headD default).wend -
              (([⟨50, 70, 1/2, 0⟩] : List WindowRow).headD default).wstart) ∧
        (out.getD i default).chrom = "chr1" ∧
        (out.getD i default).brduFreq =
          (([⟨50, 70, 1/2, 0⟩] : List WindowRow).getD i default).brduFreq ∧
        (out.getD i default).eduFreq =
          (([⟨50, 70, 1/2, 0⟩] : List WindowRow).getD i default).eduFreq :=
  claim_C3 "chr1" 1000 2000 false [⟨50, 70, 1/2, 0⟩] (by simp)

/-! ### Claim C7: the mapper's empty-input precondition and its caller -/

/-- C7 (code versus spec): the coordinate mapper does fail on an empty window
sequence (the `window_results[0]` lookup, modelled as `none`); but the per-read
pipeline has no guard: `shortRead` carries valid MM/ML tags that decode to a
single position, its window list is empty for window_size 100, and
`process_read` still invokes the mapper on that empty list, so the whole read
fails instead of being withheld from this stage. -/
theorem claim_C7 :
    convert_relative_to_abs_positions "chr1" 1000 1005 false [] = none
    ∧ parse_ml_mm shortRead.mm shortRead.ml = some [(1, ⟨1, 0, 0⟩)]
    ∧ compute_sliding_windows [(1, ⟨1, 0, 0⟩)] shortRead.window_size shortRead.step_size = []
    ∧ process_read shortRead = none := by
  refine ⟨rfl, ?_, ?_, ?_⟩
  · norm_num [shortRead, parse_ml_mm, parseGroupsAux, stepGroup, recordML, ensureKey,
      setField, lookupPos, recomputeNone, fixNone, initProbs]
  · rfl
  · rfl

/-! ### Argmin / argmax infrastructure for the aligner -/

theorem firstIdxWhere_spec {α : Type*} (p : α → Bool) (d : α) :
    ∀ (l : List α) (i : ℕ), firstIdxWhere p l = some i →
      i < l.length ∧ p (l.getD i d) = true ∧ ∀ j < i, p (l.getD j d) = false := by
  intro l
  induction l with
  | nil => intro i h; simp [firstIdxWhere] at h
  | cons a t ih =>
    intro i h
    rw [firstIdxWhere] at h
    by_cases hp : p a
    · rw [if_pos hp] at h
      obtain rfl : (0 : ℕ) = i := Option.some.inj h
      exact ⟨by simp, hp, by omega⟩
    · rw [if_neg hp] at h
      rcases hrec : firstIdxWhere p t with _ | i'
      · rw [hrec] at h; simp at h
      · rw [hrec] at h
        obtain rfl : i' + 1 = i := by simpa using h
        obtain ⟨h1, h2, h3⟩ := ih i' hrec
        refine ⟨by simpa using h1, by simpa using h2, ?_⟩
        intro j hj
        cases j with
        | zero => simpa using hp
        | succ j' => simpa using h3 j' (by omega)

theorem firstIdxWhere_of_mem {α : Type*} (p : α → Bool) :
    ∀ (l : List α), (∃ a ∈ l, p a) → ∃ i, firstIdxWhere p l = some i := by
  intro l
  induction l with
  | nil => rintro ⟨a, ha, _⟩; simp at ha
  | cons a t ih =>
    rintro ⟨b, hb, hpb⟩
    rw [firstIdxWhere]
    by_cases hp : p a
    · exact ⟨0, by rw [if_pos hp]⟩
    · rcases List.mem_cons.mp hb with rfl | hbt
      · exact absurd hpb (by simpa using hp)
      · obtain ⟨i, hi⟩ := ih ⟨b, hbt, hpb⟩
        exact ⟨i + 1, by rw [if_neg hp, hi]; rfl⟩

theorem foldl_min_le : ∀ (l : List ℚ) (a : ℚ),
    l.foldl min a ≤ a ∧ ∀ z ∈ l, l.foldl min a ≤ z := by
  intro l
  induction l with
  | nil => intro a; exact ⟨le_refl a, by simp⟩
  | cons b t ih =>
    intro a
    obtain ⟨h1, h2⟩ := ih (min a b)
    refine ⟨le_trans h1 (min_le_left a b), ?_⟩
    intro z hz
    rcases List.mem_cons.mp hz with rfl | hzt
    · exact le_trans h1 (min_le_right a z)
    · exact h2 z hzt

theorem foldl_min_mem : ∀ (l : List ℚ) (a : ℚ), l.foldl min a = a ∨ l.foldl min a ∈ l := by
  intro l
  induction l with
  | nil => intro a; exact Or.inl rfl
  | cons b t ih =>
    intro a
    rcases ih (min a b) with h | h
    · rcases min_choice a b with hc | hc
      · exact Or.inl (by rw [List.foldl_cons, h, hc])
      · exact Or.inr (by rw [List.foldl_cons, h, hc]; exact List.mem_cons_self b t)
    · exact Or.inr (List.mem_cons_of_mem b (by simpa using h))

theorem foldl_max_le : ∀ (l : List ℚ) (a : ℚ),
    a ≤ l.foldl max a ∧ ∀ z ∈ l, z ≤ l.foldl max a := by
  intro l
  induction l with
  | nil => intro a; exact ⟨le_refl a, by simp⟩
  | cons b t ih =>
    intro a
    obtain ⟨h1, h2⟩ := ih (max a b)
    refine ⟨le_trans (le_max_left a b) h1, ?_⟩
    intro z hz
    rcases List.mem_cons.mp hz with rfl | hzt
    · exact le_trans (le_max_right a z) h1
    · exact h2 z hzt

theorem foldl_max_mem : ∀ (l : List ℚ) (a : ℚ), l.foldl max a = a ∨ l.foldl max a ∈ l := by
  intro l
  induction l with
  | nil => intro a; exact Or.inl rfl
  | cons b t ih =>
    intro a
    rcases ih (max a b) with h | h
    · rcases max_choice a b with hc | hc
      · exact Or.inl (by rw [List.foldl_cons, h, hc])
      · exact Or.inr (by rw [List.foldl_cons, h, hc]; exact List.mem_cons_self b t)
    · exact Or.inr (List.mem_cons_of_mem b (by simpa using h))

theorem minQ_le (l : List ℚ) : ∀ z ∈ l, minQ l ≤ z := by
  cases l with
  | nil => intro z hz; simp at hz
  | cons a t =>
    intro z hz
    unfold minQ
    simp only [List.headD_cons, List.foldl_cons, min_self]
    rcases List.mem_cons.mp hz with rfl | hzt
    · exact (foldl_min_le t z).1
    · exact (foldl_min_le t a).2 z hzt

theorem minQ_mem (l : List ℚ) (hl : l ≠ []) : minQ l ∈ l := by
  cases l with
  | nil => exact absurd rfl hl
  | cons a t =>
    unfold minQ
    simp only [List.headD_cons, List.foldl_cons, min_self]
    rcases foldl_min_mem t a with h | h
    · rw [h]; exact List.mem_cons_self a t
    · exact List.mem_cons_of_mem a h

theorem maxQ_ge (l : List ℚ) : ∀ z ∈ l, z ≤ maxQ l := by
  cases l with
  | nil => intro z hz; simp at hz
  | cons a t =>
    intro z hz
    unfold maxQ
    simp only [List.headD_cons, List.foldl_cons, max_self]
    rcases List.mem_cons.mp hz with rfl | hzt
    · exact (foldl_max_le t z).1
    · exact (foldl_max_le t a).2 z hzt

theorem maxQ_mem (l : List ℚ) (hl : l ≠ []) : maxQ l ∈ l := by
  cases l with
  | nil => exact absurd rfl hl
  | cons a t =>
    unfold maxQ
    simp only [List.headD_cons, List.foldl_cons, max_self]
    rcases foldl_max_mem t a with h | h
    · rw [h]; exact List.mem_cons_self a t
    · exact List.mem_cons_of_mem a h

theorem getD_mem_of_lt {α : Type*} (d : α) :
    ∀ (l : List α) (i : ℕ), i < l.length → l.getD i d ∈ l := by
  intro l
  induction l with
  | nil => intro i h; simp at h
  | cons a t ih =>
    intro i h
    cases i with
    | zero => exact List.mem_cons_self a t
    | succ j => exact List.mem_cons_of_mem a (by simpa using ih j (by simpa using h))

theorem argmin_spec (l : List ℚ) (hl : l ≠ []) :
    argminIdx l < l.length ∧ l.getD (argminIdx l) 0 = minQ l ∧
      (∀ z ∈ l, l.getD (argminIdx l) 0 ≤ z) ∧
      ∀ j < argminIdx l, l.getD (argminIdx l) 0 < l.getD j 0 := by
  obtain ⟨i, hi⟩ := firstIdxWhere_of_mem (fun v => decide (v = minQ l)) l
    ⟨minQ l, minQ_mem l hl, by simp⟩
  obtain ⟨h1, h2, h3⟩ := firstIdxWhere_spec (fun v => decide (v = minQ l)) 0 l i hi
  have hidx : argminIdx l = i := by rw [argminIdx, hi]; rfl
  have heq : l.getD i 0 = minQ l := of_decide_eq_true h2
  rw [hidx]
  refine ⟨h1, heq, fun z hz => heq ▸ minQ_le l z hz, ?_⟩
  intro j hj
  have hne : l.getD j 0 ≠ minQ l := by
    have := h3 j hj
    simpa using this
  have hmem : l.getD j 0 ∈ l := getD_mem_of_lt 0 l j (by omega)
  have := minQ_le l _ hmem
  rw [heq]
  exact lt_of_le_of_ne this (fun hc => hne hc.symm)

theorem argmax_spec (l : List ℚ) (hl : l ≠ []) :
    argmaxIdx l < l.length ∧ l.getD (argmaxIdx l) 0 = maxQ l ∧
      (∀ z ∈ l, z ≤ l.getD (argmaxIdx l) 0) ∧
      ∀ j < argmaxIdx l, l.getD j 0 < l.getD (argmaxIdx l) 0 := by
  obtain ⟨i, hi⟩ := firstIdxWhere_of_mem (fun v => decide (v = maxQ l)) l
    ⟨maxQ l, maxQ_mem l hl, by simp⟩
  obtain ⟨h1, h2, h3⟩ := firstIdxWhere_spec (fun v => decide (v = maxQ l)) 0 l i hi
  have hidx : argmaxIdx l = i := by rw [argmaxIdx, hi]; rfl
  have heq : l.getD i 0 = maxQ l := of_decide_eq_true h2
  rw [hidx]
  refine ⟨h1, heq, fun z hz => heq ▸ maxQ_ge l z hz, ?_⟩
  intro j hj
  have hne : l.getD j 0 ≠ maxQ l := by
    have := h3 j hj
    simpa using this
  have hmem : l.getD j 0 ∈ l := getD_mem_of_lt 0 l j (by omega)
  have := maxQ_ge l _ hmem
  rw [heq]
  exact lt_of_le_of_ne this hne

theorem uf1d_length (l : List ℚ) (size : ℕ) : (uf1d l size).length = l.length := by
  simp only [uf1d, List.length_map, List.length_range]

/-! ### Claim C4: the track aligner -/

/-- C4: the aligner reverses the start column, and only that column, exactly
when the start at the smoothed-diff argmin row exceeds the start at the argmax
row (argmin/argmax resolving ties to the first occurrence, witnessed by the
first-occurrence conjuncts); it then sets `x = start − (start at the argmin
index, recomputed after any reversal)`, so the row at the argmin index has
x = 0. -/
theorem claim_C4 (t : PairedTrack) (hlen : t.diffs.length = t.starts.length)
    (hne : t.starts ≠ []) :
    let droll := uf1d (t.diffs.map (fun o => o.getD 0)) 500
    let iMin := argminIdx droll
    let iMax := argmaxIdx droll
    let a := align_diff_by_minimum t
    (a.chroms = t.chroms ∧ a.ends = t.ends ∧ a.brdus = t.brdus ∧ a.edus = t.edus ∧
      a.diffs = t.diffs ∧ a.diff_roll = droll)
    ∧ (t.starts.getD iMax 0 < t.starts.getD iMin 0 → a.starts = t.starts.reverse)
    ∧ (¬ t.starts.getD iMax 0 < t.starts.getD iMin 0 → a.starts = t.starts)
    ∧ a.x = a.starts.map (fun v => v - a.starts.getD iMin 0)
    ∧ a.x.getD iMin 0 = 0
    ∧ (∀ z ∈ droll, droll.getD iMin 0 ≤ z)
    ∧ (∀ j < iMin, droll.getD iMin 0 < droll.getD j 0)
    ∧ (∀ z ∈ droll, z ≤ droll.getD iMax 0)
    ∧ (∀ j < iMax, droll.getD j 0 < droll.getD iMax 0) := by
  intro droll iMin iMax a
  have hdlen : droll.length = t.starts.length := by
    show (uf1d (t.diffs.map (fun o => o.getD 0)) 500).length = t.starts.length
    rw [uf1d_length, List.length_map, hlen]
  have hdne : droll ≠ [] := by
    intro h
    apply hne
    have : droll.length = 0 := by rw [h]; rfl
    rw [hdlen] at this
    exact List.length_eq_zero.mp this
  obtain ⟨hminlt, _, hminle, hminfirst⟩ := argmin_spec droll hdne
  obtain ⟨hmaxlt, _, hmaxge, hmaxfirst⟩ := argmax_spec droll hdne
  have hstarts : a.starts =
      (if t.starts.getD iMax 0 < t.starts.getD iMin 0 then t.starts.reverse
       else t.starts) := rfl
  have hslen : a.starts.length = t.starts.length := by
    rw [hstarts]
    by_cases h : t.starts.getD iMax 0 < t.starts.getD iMin 0
    · rw [if_pos h, List.length_reverse]
    · rw [if_neg h]
  refine ⟨⟨rfl, rfl, rfl, rfl, rfl, rfl⟩, ?_, ?_, rfl, ?_, hminle, hminfirst, hmaxge, hmaxfirst⟩
  · intro h
    rw [hstarts, if_pos h]
  · intro h
    rw [hstarts, if_neg h]
  · have hx : a.x = a.starts.map (fun v => v - a.starts.getD iMin 0) := rfl
    rw [hx, getD_map_lt _ 0 0 a.starts iMin (by rw [hslen, ← hdlen]; exact hminlt)]
    exact sub_self _

/-- Witness for C4: on a concrete two-row track whose smoothed diff decreases,
the aligner puts x = 0 at the smoothed-diff argmin row. -/
theorem claim_C4_witness :
    (align_diff_by_minimum
        ⟨["chr1", "chr1"], [100, 200], [110, 210], [some 1, some 0], [some 0, some 1],
          [some 1, some (-1)]⟩).x.getD
      (argminIdx (uf1d ((⟨["chr1", "chr1"], [100, 200], [110, 210], [some 1, some 0],
        [some 0, some 1], [some 1, some (-1)]⟩ : PairedTrack).diffs.map
          (fun o => o.getD 0)) 500)) 0 = 0 := by
  have h := claim_C4
    ⟨["chr1", "chr1"], [100, 200], [110, 210], [some 1, some 0], [some 0, some 1],
      [some 1, some (-1)]⟩ (by simp) (by simp)
  exact h.2.2.2.2.1

/-! ### Claim C6: the cross-track summarizer -/

/-- C6: grouping the pooled aligned rows by exact x, the summarizer's sd is
the sample standard deviation with n−1 divisor (characterized by sd ≥ 0 and
sd² · (n−1) = Σ (v − mean)² for n ≥ 2), se = sd/√n, and the confidence bounds
are mean ∓ 1.96·se; a group of count n = 1 gets sd, se, ci_lower and ci_upper
all NaN (`none`), as returned values of the total function. -/
theorem claim_C6 (rows : List (Int × Option ℚ)) (x : Int)
    (hx : x ∈ rows.map (fun r => r.1)) :
    ∀ (vals : List ℚ) (g : SummaryRow), vals = groupVals rows x → g = summaryAt rows x →
    g ∈ summarize_combined_tracks rows
    ∧ g.n = vals.length
    ∧ (2 ≤ g.n → ∃ sdv, g.sd = some sdv ∧ 0 ≤ sdv ∧
        sdv ^ 2 * ((g.n : ℝ) - 1) =
          (vals.map (fun v => ((v : ℝ) - ((vals.sum / (vals.length : ℚ) : ℚ) : ℝ)) ^ 2)).sum)
    ∧ (g.n ≤ 1 → g.sd = none)
    ∧ g.se = g.sd.map (fun sdv => sdv / Real.sqrt (g.n : ℝ))
    ∧ (∀ mv e, g.mean = some mv → g.se = some e →
        g.ci_lower = some ((mv : ℝ) - 196 / 100 * e) ∧
        g.ci_upper = some ((mv : ℝ) + 196 / 100 * e))
    ∧ (g.se = none → g.ci_lower = none ∧ g.ci_upper = none)
    ∧ (g.n = 1 → g.sd = none ∧ g.se = none ∧ g.ci_lower = none ∧ g.ci_upper = none) := by
  intro vals g hv hg
  subst hv
  subst hg
  set vals := groupVals rows x
  set g := summaryAt rows x
  have hn : g.n = vals.length := rfl
  have hmean : g.mean =
      (if vals.length = 0 then none else some (vals.sum / (vals.length : ℚ))) := rfl
  have hsd : g.sd =
      (if 2 ≤ vals.length then
        some (Real.sqrt
          (((vals.map (fun v => ((v : ℝ) - ((vals.sum / (vals.length : ℚ) : ℚ) : ℝ)) ^ 2)).sum)
            / ((vals.length : ℝ) - 1)))
      else none) := rfl
  have hse : g.se = g.sd.map (fun sdv => sdv / Real.sqrt (g.n : ℝ)) := rfl
  have hcl : g.ci_lower =
      (match g.mean, g.se with
       | some mv, some e => some ((mv : ℝ) - 196 / 100 * e)
       | _, _ => none) := rfl
  have hcu : g.ci_upper =
      (match g.mean, g.se with
       | some mv, some e => some ((mv : ℝ) + 196 / 100 * e)
       | _, _ => none) := rfl
  have hsdnone : vals.length ≤ 1 → g.sd = none := by
    intro h1
    rw [hsd, if_neg (by omega)]
  have hcimv : ∀ mv e, g.mean = some mv → g.se = some e →
      g.ci_lower = some ((mv : ℝ) - 196 / 100 * e) ∧
      g.ci_upper = some ((mv : ℝ) + 196 / 100 * e) := by
    intro mv e hm hs
    rw [hcl, hcu, hm, hs]
    exact ⟨rfl, rfl⟩
  have hcinone : g.se = none → g.ci_lower = none ∧ g.ci_upper = none := by
    intro hs
    rw [hcl, hcu, hs]
    by_cases h0 : vals.length = 0
    · rw [hmean, if_pos h0]
      exact ⟨rfl, rfl⟩
    · rw [hmean, if_neg h0]
      exact ⟨rfl, rfl⟩
  refine ⟨?_, hn, ?_, hsdnone, hse, hcimv, hcinone, ?_⟩
  · have hkey : x ∈ uniqueSortedKeys rows := by
      rw [uniqueSortedKeys, List.mem_dedup]
      exact (List.perm_insertionSort _ _).symm.subset hx
    exact List.mem_map_of_mem _ hkey
  · intro h2
    rw [hn] at h2
    have hpos : (0 : ℝ) <
        ((vals.length : ℝ) - 1) := by
      have : (2 : ℝ) ≤ (vals.length : ℝ) := by exact_mod_cast h2
      linarith
    have hsum : (0 : ℝ) ≤
        (vals.map (fun v => ((v : ℝ) - ((vals.sum / (vals.length : ℚ) : ℚ) : ℝ)) ^ 2)).sum := by
      apply List.sum_nonneg
      intro y hy
      obtain ⟨v, _, rfl⟩ := List.mem_map.mp hy
      positivity
    refine ⟨Real.sqrt
      (((vals.map (fun v => ((v : ℝ) - ((vals.sum / (vals.length : ℚ) : ℚ) : ℝ)) ^ 2)).sum)
        / ((vals.length : ℝ) - 1)), ?_, Real.sqrt_nonneg _, ?_⟩
    · rw [hsd, if_pos h2]
    · rw [Real.sq_sqrt (by positivity), hn]
      field_simp
  · intro h1
    have hsd1 : g.sd = none := hsdnone (by omega)
    have hse1 : g.se = none := by rw [hse, hsd1]; rfl
    obtain ⟨hc1, hc2⟩ := hcinone hse1
    exact ⟨hsd1, hse1, hc1, hc2⟩

/-- Witness for C6: the singleton group at x = 5 of a concrete pooled frame
has sd, se and both confidence bounds NaN. -/
theorem claim_C6_witness :
    (summaryAt [(0, some 1), (0, some 3), (5, some 2)] 5).sd = none ∧
    (summaryAt [(0, some 1), (0, some 3), (5, some 2)] 5).se = none ∧
    (summaryAt [(0, some 1), (0, some 3), (5, some 2)] 5).ci_lower = none ∧
    (summaryAt [(0, some 1), (0, some 3), (5, some 2)] 5).ci_upper = none := by
  have h := claim_C6 [(0, some 1), (0, some 3), (5, some 2)] 5 (by decide) _ _ rfl rfl
  exact h.2.2.2.2.2.2.2 rfl

/-! ### First-occurrence lemmas for find?, filter, head? and firstMaxBy -/

theorem head?_eq_some_mem {α : Type*} (l : List α) (a : α) (h : l.head? = some a) : a ∈ l := by
  cases l with
  | nil => simp at h
  | cons b t =>
    obtain rfl : b = a := by simpa using h
    exact List.mem_cons_self _ _

theorem filter_eq_cons_split {α : Type*} (p : α → Bool) :
    ∀ (l : List α) (a : α) (rest : List α), l.filter p = a :: rest →
      ∃ pre post, l = pre ++ a :: post ∧ (∀ q ∈ pre, p q = false) ∧ p a = true := by
  intro l
  induction l with
  | nil => intro a rest h; simp at h
  | cons b t ih =>
    intro a rest h
    rcases hp : p b with _ | _
    · rw [List.filter_cons_of_neg (by simp [hp])] at h
      obtain ⟨pre, post, hsplit, hpre, hpa⟩ := ih a rest h
      exact ⟨b :: pre, post, by rw [hsplit]; rfl,
        fun q hq => by
          rcases List.mem_cons.mp hq with rfl | hq'
          · exact hp
          · exact hpre q hq', hpa⟩
    · rw [List.filter_cons_of_pos hp] at h
      injection h with h1 h2
      subst h1
      exact ⟨[], t, rfl, by simp, hp⟩

theorem firstMaxBy_eq_none {α : Type*} (f : α → ℚ) :
    ∀ l : List α, firstMaxBy f l = none ↔ l = [] := by
  intro l
  cases l with
  | nil => simp [firstMaxBy]
  | cons a t =>
    simp only [firstMaxBy]
    rcases h : firstMaxBy f t with _ | b
    · simp
    · by_cases hf : f a < f b <;> simp [hf]

theorem firstMaxBy_mem {α : Type*} (f : α → ℚ) :
    ∀ (l : List α) (p : α), firstMaxBy f l = some p → p ∈ l := by
  intro l
  induction l with
  | nil => intro p h; simp [firstMaxBy] at h
  | cons a t ih =>
    intro p h
    rcases hr : firstMaxBy f t with _ | b
    · simp only [firstMaxBy, hr] at h
      obtain rfl : a = p := by simpa using h
      exact List.mem_cons_self _ _
    · simp only [firstMaxBy, hr] at h
      by_cases hf : f a < f b
      · rw [if_pos hf] at h
        obtain rfl : b = p := by simpa using h
        exact List.mem_cons_of_mem a (ih _ hr)
      · rw [if_neg hf] at h
        obtain rfl : a = p := by simpa using h
        exact List.mem_cons_self _ _

theorem firstMaxBy_ge {α : Type*} (f : α → ℚ) :
    ∀ (l : List α) (p : α), firstMaxBy f l = some p → ∀ q ∈ l, f q ≤ f p := by
  intro l
  induction l with
  | nil => intro p h; simp [firstMaxBy] at h
  | cons a t ih =>
    intro p h q hq
    rcases hr : firstMaxBy f t with _ | b
    · simp only [firstMaxBy, hr] at h
      obtain rfl : a = p := by simpa using h
      have ht : t = [] := (firstMaxBy_eq_none f t).mp hr
      rcases List.mem_cons.mp hq with rfl | hq'
      · exact le_refl _
      · rw [ht] at hq'; simp at hq'
    · simp only [firstMaxBy, hr] at h
      by_cases hf : f a < f b
      · rw [if_pos hf] at h
        obtain rfl : b = p := by simpa using h
        rcases List.mem_cons.mp hq with rfl | hq'
        · exact le_of_lt hf
        · exact ih _ hr q hq'
      · rw [if_neg hf] at h
        obtain rfl : a = p := by simpa using h
        rcases List.mem_cons.mp hq with rfl | hq'
        · exact le_refl _
        · exact le_trans (ih b hr q hq') (not_lt.mp hf)

theorem firstMaxBy_first {α : Type*} (f : α → ℚ) :
    ∀ (l : List α) (p : α), firstMaxBy f l = some p →
      ∃ pre post, l = pre ++ p :: post ∧ ∀ q ∈ pre, f q < f p := by
  intro l
  induction l with
  | nil => intro p h; simp [firstMaxBy] at h
  | cons a t ih =>
    intro p h
    rcases hr : firstMaxBy f t with _ | b
    · simp only [firstMaxBy, hr] at h
      obtain rfl : a = p := by simpa using h
      exact ⟨[], t, rfl, by simp⟩
    · simp only [firstMaxBy, hr] at h
      by_cases hf : f a < f b
      · rw [if_pos hf] at h
        obtain rfl : b = p := by simpa using h
        obtain ⟨pre, post, hsplit, hpre⟩ := ih _ hr
        refine ⟨a :: pre, post, by rw [hsplit]; rfl, ?_⟩
        intro q hq
        rcases List.mem_cons.mp hq with rfl | hq'
        · exact hf
        · exact hpre q hq'
      · rw [if_neg hf] at h
        obtain rfl : a = p := by simpa using h
        exact ⟨[], t, rfl, by simp⟩

/-! ### Claim C10: ordering of the three boundaries in both detectors -/

/-- C10: whenever all three boundaries are defined, they satisfy
edu_start ≤ brdu_start < brdu_end. The aggregate detector picks brdu_start
among rows with x ≥ edu_start and brdu_end among rows with x > brdu_start+100;
the single-track detector picks edu_start < 0 < brdu_start and brdu_end at an
x strictly greater than the peak x, itself strictly greater than brdu_start. -/
theorem claim_C10 (srows : List (Int × Option ℚ)) (trows : List TrackRow) :
    (∀ e b be : Int, detect_signal_boundaries srows = ⟨some e, some b, some be⟩ →
      e ≤ b ∧ b + 100 < be ∧ b < be)
    ∧ (∀ e b be : Int, edu_boundaries_detect trows = ⟨some e, some b, some be⟩ →
      e < 0 ∧ 0 < b ∧ e ≤ b ∧ b < be ∧
        ∃ p, stPeak trows b = some p ∧ b < p.x ∧ p.x < be) := by
  constructor
  · intro e b be heq
    have he : ag_edu_start srows = some e := congrArg Bounds.edu_start heq
    have hb : ag_brdu_start srows = some b := congrArg Bounds.brdu_start heq
    have hbe : ag_brdu_end srows = some be := congrArg Bounds.brdu_end heq
    have hb2 : (srows.find? (fun r => decide (e ≤ r.1) && optGTb r.2 0)).map
        (fun r => r.1) = some b := by
      have h := hb
      unfold ag_brdu_start at h
      rw [he] at h
      exact h
    obtain ⟨r, hrfind, hrb⟩ := Option.map_eq_some'.mp hb2
    have hpred := List.find?_some hrfind
    simp only [Bool.and_eq_true, decide_eq_true_eq] at hpred
    have heb : e ≤ b := hrb ▸ hpred.1
    have hbe2 : (((ag_later srows b).zip (ag_roll (ag_later srows b))).find?
        (fun p => decide (p.2 ≤ 1 / 100))).map (fun p => p.1.1) = some be := by
      have h := hbe
      unfold ag_brdu_end at h
      rw [hb] at h
      exact h
    obtain ⟨pr, hprfind, hprbe⟩ := Option.map_eq_some'.mp hbe2
    obtain ⟨⟨px, pv⟩, pq⟩ := pr
    have hmem := List.mem_of_find?_eq_some hprfind
    obtain ⟨hm1, -⟩ := List.of_mem_zip hmem
    have hlt := (List.mem_filter.mp hm1).2
    simp only [decide_eq_true_eq] at hlt
    have : b + 100 < be := by
      simpa using hprbe ▸ hlt
    exact ⟨heb, this, by omega⟩
  · intro e b be heq
    have he : st_edu_start trows = some e := congrArg Bounds.edu_start heq
    have hb : st_brdu_start trows = some b := congrArg Bounds.brdu_start heq
    have hbe : st_brdu_end trows = some be := congrArg Bounds.brdu_end heq
    have he2 : (((stSorted trows).zip (stSmoothed trows)).find? (fun p =>
        decide (p.2 < -(1 / 10)) && decide (p.1.x < 0) && decide (-10000 < p.1.x))).map
        (fun p => p.1.x) = some e := he
    obtain ⟨pr, hprfind, hpre⟩ := Option.map_eq_some'.mp he2
    have hpred := List.find?_some hprfind
    simp only [Bool.and_eq_true, decide_eq_true_eq] at hpred
    have hneg : e < 0 := hpre ▸ hpred.1.2
    have hb2 : ((stSorted trows).find? (fun r =>
        decide (e ≤ r.x) && decide (0 < r.x) && optGTb r.diff 0)).map
        (fun r => r.x) = some b := by
      have h := hb
      unfold st_brdu_start at h
      rw [he] at h
      exact h
    obtain ⟨r, hrfind, hrb⟩ := Option.map_eq_some'.mp hb2
    have hpredb := List.find?_some hrfind
    simp only [Bool.and_eq_true, decide_eq_true_eq] at hpredb
    have hbpos : 0 < b := hrb ▸ hpredb.1.2
    have heb : e ≤ b := hrb ▸ hpredb.1.1
    have hbe2 : (match stPeak trows b with
        | none => none
        | some p => ((stDropZone trows p.x).head?).map (fun a => a.x)) = some be := by
      have h := hbe
      unfold st_brdu_end at h
      rw [hb] at h
      exact h
    rcases hp : stPeak trows b with _ | p
    · rw [hp] at hbe2
      have : (none : Option Int) = some be := hbe2
      exact absurd this (by simp)
    · rw [hp] at hbe2
      have hbe3 : ((stDropZone trows p.x).head?).map (fun a => a.x) = some be := hbe2
      obtain ⟨a, hahead, hax⟩ := Option.map_eq_some'.mp hbe3
      have hadz : a ∈ stDropZone trows p.x := head?_eq_some_mem _ a hahead
      have hap : a ∈ stAfterPeak trows p.x := (List.mem_filter.mp hadz).1
      have hagt := (List.mem_filter.mp hap).2
      simp only [decide_eq_true_eq] at hagt
      have hpw : p ∈ stWindow trows b := firstMaxBy_mem _ _ p hp
      have hpgt := (List.mem_filter.mp hpw).2
      simp only [Bool.and_eq_true, decide_eq_true_eq] at hpgt
      have hbpx : b < p.x := hpgt.1
      have hpxbe : p.x < be := hax ▸ hagt
      exact ⟨hneg, hbpos, heb, by omega, p, rfl, hbpx, hpxbe⟩

/-! ### Claim C5: the single-track brdu_end rule -/

/-- C5: given a defined brdu_start b, the single-track detector takes the peak
as the first row of maximum BrdU_smooth among the filtered rows with
b < x ≤ b + 15000, and brdu_end as the x of the first filtered row strictly
after the peak's x with diff_smooth ≤ 0.75 and diff_smooth/BrdU_smooth ≤ 0.65
(float-division semantics); brdu_end is NaN when brdu_start is NaN, the
15000-bp window is empty, or no qualifying row follows the peak. -/
theorem claim_C5 (rows : List TrackRow) :
    (st_brdu_start rows = none → st_brdu_end rows = none)
    ∧ ∀ b : Int, st_brdu_start rows = some b →
        (stWindow rows b = [] → st_brdu_end rows = none)
        ∧ ∀ p, stPeak rows b = some p →
            (p ∈ stWindow rows b ∧ b < p.x ∧ p.x ≤ b + 15000)
            ∧ (∀ q ∈ stWindow rows b, q.bsm ≤ p.bsm)
            ∧ (∃ pre post, stWindow rows b = pre ++ p :: post ∧ ∀ q ∈ pre, q.bsm < p.bsm)
            ∧ (stDropZone rows p.x = [] → st_brdu_end rows = none)
            ∧ ∀ e : Int, st_brdu_end rows = some e →
                ∃ a pre2 post2, stAfterPeak rows p.x = pre2 ++ a :: post2
                  ∧ a.x = e ∧ a.dsm ≤ 3 / 4 ∧ divLEQ a.dsm a.bsm (13 / 20) = true
                  ∧ ∀ q ∈ pre2, ¬(q.dsm ≤ 3 / 4 ∧ divLEQ q.dsm q.bsm (13 / 20) = true) := by
  constructor
  · intro h
    unfold st_brdu_end
    rw [h]
  · intro b hb
    constructor
    · intro hw
      have hpk : stPeak rows b = none := by
        unfold stPeak
        rw [hw]
        rfl
      unfold st_brdu_end
      rw [hb]
      have : (match stPeak rows b with
          | none => none
          | some p => ((stDropZone rows p.x).head?).map (fun a => a.x)) = (none : Option Int) := by
        rw [hpk]
      exact this
    · intro p hp
      have hpw : p ∈ stWindow rows b := firstMaxBy_mem _ _ p hp
      have hpf := (List.mem_filter.mp hpw).2
      simp only [Bool.and_eq_true, decide_eq_true_eq] at hpf
      refine ⟨⟨hpw, hpf.1, hpf.2⟩, firstMaxBy_ge _ _ p hp, firstMaxBy_first _ _ p hp, ?_, ?_⟩
      · intro hdz
        unfold st_brdu_end
        rw [hb]
        have : (match stPeak rows b with
            | none => none
            | some q => ((stDropZone rows q.x).head?).map (fun a => a.x)) = (none : Option Int) := by
          rw [hp]
          show ((stDropZone rows p.x).head?).map (fun a => a.x) = none
          rw [hdz]
          rfl
        exact this
      · intro e he
        have he2 : (match stPeak rows b with
            | none => none
            | some q => ((stDropZone rows q.x).head?).map (fun a => a.x)) = some e := by
          have h := he
          unfold st_brdu_end at h
          rw [hb] at h
          exact h
        rw [hp] at he2
        have he3 : ((stDropZone rows p.x).head?).map (fun a => a.x) = some e := he2
        rcases hdzc : stDropZone rows p.x with _ | ⟨hd, tl⟩
        · rw [hdzc] at he3
          simp at he3
        · rw [hdzc] at he3
          have hax : hd.x = e := by simpa using he3
          obtain ⟨pre2, post2, hsplit, hpre2, hpa⟩ :=
            filter_eq_cons_split _ (stAfterPeak rows p.x) hd tl hdzc
          simp only [Bool.and_eq_true, decide_eq_true_eq] at hpa
          refine ⟨hd, pre2, post2, hsplit, hax, hpa.1, hpa.2, ?_⟩
          intro q hq hcon
          have hfq := hpre2 q hq
          have htr : (decide (q.dsm ≤ 3 / 4) && divLEQ q.dsm q.bsm (13 / 20)) = true := by
            simp only [Bool.and_eq_true, decide_eq_true_eq]
            exact hcon
          rw [htr] at hfq
          exact absurd hfq (by simp)

/-! ### Concrete evaluations of the two detectors (for the witnesses) -/

theorem ufElem_st0 : ufElem [(-100 : ℚ), 1, 1, -1] 101 0 = -5146/101 := by
  simp [ufElem, List.range_succ, clampIdx]
  norm_num

theorem ufElem_st1 : ufElem [(-100 : ℚ), 1, 1, -1] 101 1 = -5047/101 := by
  simp [ufElem, List.range_succ, clampIdx]
  norm_num

theorem ufElem_st2 : ufElem [(-100 : ℚ), 1, 1, -1] 101 2 = -4948/101 := by
  simp [ufElem, List.range_succ, clampIdx]
  norm_num

theorem ufElem_st3 : ufElem [(-100 : ℚ), 1, 1, -1] 101 3 = -4849/101 := by
  simp [ufElem, List.range_succ, clampIdx]
  norm_num

theorem ufElem_ag0 : ufElem [(-100 : ℚ), 1, 0] 101 0 = -5099/101 := by
  simp [ufElem, List.range_succ, clampIdx]
  norm_num

theorem ufElem_ag1 : ufElem [(-100 : ℚ), 1, 0] 101 1 = -4999/101 := by
  simp [ufElem, List.range_succ, clampIdx]
  norm_num

theorem ufElem_ag2 : ufElem [(-100 : ℚ), 1, 0] 101 2 = -4899/101 := by
  simp [ufElem, List.range_succ, clampIdx]
  norm_num

theorem ufElem_later : ufElem [(0 : ℚ)] 101 0 = 0 := by
  simp [ufElem, List.range_succ, clampIdx]

theorem stSmoothed_eval :
    stSmoothed sampleTrack = [-5146/101, -5047/101, -4948/101, -4849/101] := by
  show uf1d [(-100 : ℚ), 1, 1, -1] 101 = _
  rw [show uf1d [(-100 : ℚ), 1, 1, -1] 101 =
      [ufElem [(-100 : ℚ), 1, 1, -1] 101 0, ufElem [(-100 : ℚ), 1, 1, -1] 101 1,
       ufElem [(-100 : ℚ), 1, 1, -1] 101 2, ufElem [(-100 : ℚ), 1, 1, -1] 101 3] from rfl,
    ufElem_st0, ufElem_st1, ufElem_st2, ufElem_st3]

theorem st_edu_eval : st_edu_start sampleTrack = some (-5) := by
  unfold st_edu_start
  rw [show stSorted sampleTrack = sampleTrack from rfl, stSmoothed_eval]
  norm_num [sampleTrack, List.find?, List.zip_cons_cons, List.zip_nil_right]

theorem st_brdu_eval : st_brdu_start sampleTrack = some 1 := by
  unfold st_brdu_start
  rw [st_edu_eval]
  show ((stSorted sampleTrack).find? (fun r =>
      decide ((-5 : Int) ≤ r.x) && decide (0 < r.x) && optGTb r.diff 0)).map
    (fun r => r.x) = some 1
  rw [show stSorted sampleTrack = sampleTrack from rfl]
  norm_num [sampleTrack, List.find?, optGTb]

theorem stFiltered_eval :
    stFiltered sampleTrack = [(-5, -100, 0), (1, 1, 10), (3, 1, 1), (5, -1, 1)] := rfl

theorem rmc_d_eval :
    rollingMeanC 100 ((stFiltered sampleTrack).map (fun t => t.2.1)) =
      [-99/4, -99/4, -99/4, -99/4] := by
  show rollingMeanC 100 [(-100 : ℚ), 1, 1, -1] = _
  simp [rollingMeanC, List.range_succ]
  norm_num

theorem rmc_b_eval :
    rollingMeanC 100 ((stFiltered sampleTrack).map (fun t => t.2.2)) = [3, 3, 3, 3] := by
  show rollingMeanC 100 [(0 : ℚ), 10, 1, 1] = _
  simp [rollingMeanC, List.range_succ]
  norm_num

theorem stAnnotated_eval :
    stAnnotated sampleTrack =
      [⟨-5, -99/4, 3⟩, ⟨1, -99/4, 3⟩, ⟨3, -99/4, 3⟩, ⟨5, -99/4, 3⟩] := by
  unfold stAnnotated
  rw [rmc_d_eval, rmc_b_eval, stFiltered_eval]
  rfl

theorem stWindow_eval : stWindow sampleTrack 1 = [⟨3, -99/4, 3⟩, ⟨5, -99/4, 3⟩] := by
  unfold stWindow
  rw [stAnnotated_eval]
  norm_num [List.filter]

theorem stPeak_eval : stPeak sampleTrack 1 = some ⟨3, -99/4, 3⟩ := by
  unfold stPeak
  rw [stWindow_eval]
  norm_num [firstMaxBy]

theorem stAfterPeak_eval : stAfterPeak sampleTrack 3 = [⟨5, -99/4, 3⟩] := by
  unfold stAfterPeak
  rw [stAnnotated_eval]
  norm_num [List.filter]

theorem stDropZone_eval : stDropZone sampleTrack 3 = [⟨5, -99/4, 3⟩] := by
  unfold stDropZone
  rw [stAfterPeak_eval]
  norm_num [List.filter, divLEQ]

theorem st_end_eval : st_brdu_end sampleTrack = some 5 := by
  unfold st_brdu_end
  rw [st_brdu_eval]
  show (match stPeak sampleTrack 1 with
      | none => none
      | some p => ((stDropZone sampleTrack p.x).head?).map (fun a => a.x)) = some 5
  rw [stPeak_eval]
  show ((stDropZone sampleTrack (3 : Int)).head?).map (fun a => a.x) = some 5
  rw [stDropZone_eval]
  rfl

theorem stDetect_eval :
    edu_boundaries_detect sampleTrack = ⟨some (-5), some 1, some 5⟩ := by
  unfold edu_boundaries_detect
  rw [st_edu_eval, st_brdu_eval, st_end_eval]

theorem ag_roll_eval : ag_roll sampleSummary = [-5099/101, -4999/101, -4899/101] := by
  show uf1d [(-100 : ℚ), 1, 0] 101 = _
  rw [show uf1d [(-100 : ℚ), 1, 0] 101 =
      [ufElem [(-100 : ℚ), 1, 0] 101 0, ufElem [(-100 : ℚ), 1, 0] 101 1,
       ufElem [(-100 : ℚ), 1, 0] 101 2] from rfl,
    ufElem_ag0, ufElem_ag1, ufElem_ag2]

theorem ag_edu_eval : ag_edu_start sampleSummary = some (-5) := by
  unfold ag_edu_start
  rw [ag_roll_eval]
  norm_num [sampleSummary, List.find?, List.zip_cons_cons, List.zip_nil_right]

theorem ag_brdu_eval : ag_brdu_start sampleSummary = some 0 := by
  unfold ag_brdu_start
  rw [ag_edu_eval]
  show (sampleSummary.find? (fun r =>
      decide ((-5 : Int) ≤ r.1) && optGTb r.2 0)).map (fun r => r.1) = some 0
  norm_num [sampleSummary, List.find?, optGTb]

theorem ag_later_eval : ag_later sampleSummary 0 = [(200, some 0)] := by
  unfold ag_later
  norm_num [sampleSummary, List.filter]

theorem ag_roll_later_eval : ag_roll [((200 : Int), some (0 : ℚ))] = [0] := by
  show uf1d [(0 : ℚ)] 101 = _
  rw [show uf1d [(0 : ℚ)] 101 = [ufElem [(0 : ℚ)] 101 0] from rfl, ufElem_later]

theorem ag_end_eval : ag_brdu_end sampleSummary = some 200 := by
  unfold ag_brdu_end
  rw [ag_brdu_eval]
  show (((ag_later sampleSummary 0).zip (ag_roll (ag_later sampleSummary 0))).find?
      (fun p => decide (p.2 ≤ 1 / 100))).map (fun p => p.1.1) = some 200
  rw [ag_later_eval, ag_roll_later_eval]
  norm_num [List.find?, List.zip_cons_cons]

theorem agDetect_eval :
    detect_signal_boundaries sampleSummary = ⟨some (-5), some 0, some 200⟩ := by
  unfold detect_signal_boundaries
  rw [ag_edu_eval, ag_brdu_eval, ag_end_eval]

/-- Witness for C10: concrete inputs on which both detectors define all three
boundaries, instantiating the ordering conclusions. -/
theorem claim_C10_witness :
    (((-5 : Int) ≤ 0 ∧ (0 : Int) + 100 < 200 ∧ (0 : Int) < 200))
    ∧ ((-5 : Int) < 0 ∧ (0 : Int) < 1 ∧ (-5 : Int) ≤ 1 ∧ (1 : Int) < 5 ∧
        ∃ p, stPeak sampleTrack 1 = some p ∧ 1 < p.x ∧ p.x < 5) :=
  ⟨(claim_C10 sampleSummary sampleTrack).1 (-5) 0 200 agDetect_eval,
   (claim_C10 sampleSummary sampleTrack).2 (-5) 1 5 stDetect_eval⟩

/-- Witness for C5: on the concrete track the peak row of the 15000-bp window
after brdu_start = 1 is a member of that window with 1 < x ≤ 15001. -/
theorem claim_C5_witness :
    (⟨3, -99/4, 3⟩ : StAnn) ∈ stWindow sampleTrack 1 ∧
      (1 : Int) < (⟨3, -99/4, 3⟩ : StAnn).x ∧
      (⟨3, -99/4, 3⟩ : StAnn).x ≤ 1 + 15000 :=
  (((claim_C5 sampleTrack).2 1 st_brdu_eval).2 ⟨3, -99/4, 3⟩ stPeak_eval).1

/-! ### Claim C9: effect of unrecognized modification kinds -/

theorem chanApply_unknown (kind : String) (prob : ℚ) (p : Probs)
    (hkb : kind ≠ "N+b?") (hke : kind ≠ "N+e?") : chanApply kind prob p = p := by
  unfold chanApply
  rw [if_neg hkb, if_neg hke]

theorem mapExtends_refl (m : ModMap) : mapExtends m m := fun _ => Or.inl rfl

theorem mapExtends_recordML_both (kind : String) (pos : Int) (prob : ℚ)
    (m1 m2 : ModMap) (hrel : mapExtends m1 m2) :
    mapExtends (recordML kind m1 pos prob) (recordML kind m2 pos prob) := by
  intro k
  rw [lookupPos_recordML, lookupPos_recordML]
  by_cases hk : k = pos
  · rw [if_pos hk, if_pos hk]
    rcases hrel pos with h | ⟨h1, h2⟩
    · rw [h]
      exact Or.inl rfl
    · rw [h1, h2]
      exact Or.inl rfl
  · rw [if_neg hk, if_neg hk]
    exact hrel k

theorem mapExtends_recordML_unknown (kind : String) (pos : Int) (prob : ℚ)
    (hkb : kind ≠ "N+b?") (hke : kind ≠ "N+e?")
    (m1 m2 : ModMap) (hrel : mapExtends m1 m2) :
    mapExtends m1 (recordML kind m2 pos prob) := by
  intro k
  rw [lookupPos_recordML]
  by_cases hk : k = pos
  · rw [if_pos hk, chanApply_unknown kind prob _ hkb hke, hk]
    rcases hrel pos with h | ⟨h1, h2⟩
    · rw [h]
      rcases hm : lookupPos m1 pos with _ | v
      · exact Or.inr ⟨rfl, rfl⟩
      · exact Or.inl rfl
    · rw [h2]
      exact Or.inr ⟨h1, rfl⟩
  · rw [if_neg hk]
    exact hrel k

theorem mapExtends_stepGroup_both (kind : String) :
    ∀ (rels : List Int) (off : Int) (m1 m2 : ModMap) (ml : List ℕ) (m1' : ModMap)
      (ml' : List ℕ), mapExtends m1 m2 → stepGroup kind rels off m1 ml = some (m1', ml') →
      ∃ m2', stepGroup kind rels off m2 ml = some (m2', ml') ∧ mapExtends m1' m2' := by
  intro rels
  induction rels with
  | nil =>
    intro off m1 m2 ml m1' ml' hrel h
    rw [stepGroup] at h ⊢
    obtain ⟨h1, h2⟩ : m1 = m1' ∧ ml = ml' := by simpa using h
    exact ⟨m2, by rw [h2], h1 ▸ hrel⟩
  | cons r rs ih =>
    intro off m1 m2 ml m1' ml' hrel h
    cases ml with
    | nil => rw [stepGroup] at h; exact absurd h (by simp)
    | cons b mlrest =>
      rw [stepGroup] at h ⊢
      exact ih _ _ _ _ _ _
        (mapExtends_recordML_both kind (off + r + 1) ((b : ℚ) / 255) m1 m2 hrel) h

theorem mapExtends_stepGroup_unknown (kind : String)
    (hkb : kind ≠ "N+b?") (hke : kind ≠ "N+e?") :
    ∀ (rels : List Int) (off : Int) (m1 m2 : ModMap) (ml : List ℕ) (m2' : ModMap)
      (ml' : List ℕ), mapExtends m1 m2 → stepGroup kind rels off m2 ml = some (m2', ml') →
      mapExtends m1 m2' := by
  intro rels
  induction rels with
  | nil =>
    intro off m1 m2 ml m2' ml' hrel h
    rw [stepGroup] at h
    obtain ⟨h1, -⟩ : m2 = m2' ∧ ml = ml' := by simpa using h
    exact h1 ▸ hrel
  | cons r rs ih =>
    intro off m1 m2 ml m2' ml' hrel h
    cases ml with
    | nil => rw [stepGroup] at h; exact absurd h (by simp)
    | cons b mlrest =>
      rw [stepGroup] at h
      exact ih _ _ _ _ _ _
        (mapExtends_recordML_unknown kind (off + r + 1) ((b : ℚ) / 255) hkb hke m1 m2 hrel) h

theorem mapExtends_parseGroupsAux (gs : List (String × List Int)) :
    ∀ (m1 m2 : ModMap) (ml : List ℕ) (n1 : ModMap) (ml' : List ℕ),
      mapExtends m1 m2 → parseGroupsAux gs m1 ml = some (n1, ml') →
      ∃ n2, parseGroupsAux gs m2 ml = some (n2, ml') ∧ mapExtends n1 n2 := by
  induction gs with
  | nil =>
    intro m1 m2 ml n1 ml' hrel h
    rw [parseGroupsAux] at h ⊢
    obtain ⟨h1, h2⟩ : m1 = n1 ∧ ml = ml' := by simpa using h
    exact ⟨m2, by rw [h2], h1 ▸ hrel⟩
  | cons g rest ih =>
    intro m1 m2 ml n1 ml' hrel h
    obtain ⟨kind, rels⟩ := g
    rw [parseGroupsAux] at h ⊢
    rcases hs : stepGroup kind rels 0 m1 ml with _ | p1
    · rw [hs] at h; exact absurd h (by simp)
    · rw [hs] at h
      obtain ⟨q1, qml⟩ := p1
      obtain ⟨q2, hq2, hrelq⟩ := mapExtends_stepGroup_both kind rels 0 m1 m2 ml q1 qml hrel hs
      rw [hq2]
      exact ih q1 q2 qml n1 ml' hrelq h

theorem fixNone_initProbs : fixNone initProbs = initProbs := by
  unfold fixNone initProbs
  norm_num

theorem mapExtends_recomputeNone (m1 m2 : ModMap) (hrel : mapExtends m1 m2) :
    mapExtends (recomputeNone m1) (recomputeNone m2) := by
  intro k
  rw [lookupPos_recomputeNone, lookupPos_recomputeNone]
  rcases hrel k with h | ⟨h1, h2⟩
  · rw [h]
    exact Or.inl rfl
  · rw [h1, h2]
    exact Or.inr ⟨rfl, by rw [Option.map_some', fixNone_initProbs]⟩

theorem lookupPos_isSome_recordML (kind : String) (m : ModMap) (pos : Int) (prob : ℚ)
    (k : Int) (h : (lookupPos m k).isSome) :
    (lookupPos (recordML kind m pos prob) k).isSome := by
  rw [lookupPos_recordML]
  by_cases hk : k = pos
  · rw [if_pos hk]; rfl
  · rw [if_neg hk]; exact h

theorem lookupPos_isSome_recordML_self (kind : String) (m : ModMap) (pos : Int) (prob : ℚ) :
    (lookupPos (recordML kind m pos prob) pos).isSome := by
  rw [lookupPos_recordML, if_pos rfl]; rfl

theorem stepGroup_isSome_mono (kind : String) :
    ∀ (rels : List Int) (off : Int) (m : ModMap) (ml : List ℕ) (m' : ModMap)
      (ml' : List ℕ) (k : Int), stepGroup kind rels off m ml = some (m', ml') →
      (lookupPos m k).isSome → (lookupPos m' k).isSome := by
  intro rels
  induction rels with
  | nil =>
    intro off m ml m' ml' k h hk
    rw [stepGroup] at h
    obtain ⟨h1, -⟩ : m = m' ∧ ml = ml' := by simpa using h
    exact h1 ▸ hk
  | cons r rs ih =>
    intro off m ml m' ml' k h hk
    cases ml with
    | nil => rw [stepGroup] at h; exact absurd h (by simp)
    | cons b mlrest =>
      rw [stepGroup] at h
      exact ih _ _ _ _ _ k h (lookupPos_isSome_recordML kind m _ _ k hk)

theorem stepGroup_offsets (kind : String) :
    ∀ (rels : List Int) (off : Int) (m : ModMap) (ml : List ℕ) (m' : ModMap)
      (ml' : List ℕ), stepGroup kind rels off m ml = some (m', ml') →
      ∀ o ∈ groupOffsets off rels, (lookupPos m' o).isSome := by
  intro rels
  induction rels with
  | nil => intro off m ml m' ml' _ o ho; simp [groupOffsets] at ho
  | cons r rs ih =>
    intro off m ml m' ml' h o ho
    cases ml with
    | nil => rw [stepGroup] at h; exact absurd h (by simp)
    | cons b mlrest =>
      rw [stepGroup] at h
      rw [groupOffsets] at ho
      rcases List.mem_cons.mp ho with rfl | ho'
      · exact stepGroup_isSome_mono kind rs (off + r + 1)
          (recordML kind m (off + r + 1) ((b : ℚ) / 255)) mlrest m' ml' (off + r + 1) h
          (lookupPos_isSome_recordML_self kind m (off + r + 1) ((b : ℚ) / 255))
      · exact ih _ _ _ _ _ h o ho'

theorem parseGroupsAux_isSome_mono :
    ∀ (gs : List (String × List Int)) (m : ModMap) (ml : List ℕ) (m' : ModMap)
      (ml' : List ℕ) (k : Int), parseGroupsAux gs m ml = some (m', ml') →
      (lookupPos m k).isSome → (lookupPos m' k).isSome := by
  intro gs
  induction gs with
  | nil =>
    intro m ml m' ml' k h hk
    rw [parseGroupsAux] at h
    obtain ⟨h1, -⟩ : m = m' ∧ ml = ml' := by simpa using h
    exact h1 ▸ hk
  | cons g rest ih =>
    intro m ml m' ml' k h hk
    obtain ⟨kind, rels⟩ := g
    rw [parseGroupsAux] at h
    rcases hs : stepGroup kind rels 0 m ml with _ | p
    · rw [hs] at h; exact absurd h (by simp)
    · rw [hs] at h
      exact ih _ _ _ _ k h (stepGroup_isSome_mono kind rels 0 m ml p.1 p.2 k hs hk)

theorem lookupPos_isSome_recomputeNone (m : ModMap) (k : Int)
    (h : (lookupPos m k).isSome) : (lookupPos (recomputeNone m) k).isSome := by
  rw [lookupPos_recomputeNone]
  rcases hm : lookupPos m k with _ | v
  · rw [hm] at h; simp at h
  · rfl

theorem lookupPos_mem : ∀ (m : ModMap) (k : Int) (p : Probs),
    lookupPos m k = some p → (k, p) ∈ m := by
  intro m
  induction m with
  | nil => intro k p h; simp [lookupPos] at h
  | cons e rest ih =>
    intro k p h
    obtain ⟨k', v⟩ := e
    rw [lookupPos_cons] at h
    by_cases hk : k' = k
    · rw [if_pos hk] at h
      obtain rfl : v = p := by simpa using h
      rw [hk]
      exact List.mem_cons_self _ _
    · rw [if_neg hk] at h
      exact List.mem_cons_of_mem _ (ih k p h)

theorem mapNonneg_ensureKey (m : ModMap) (pos : Int) (hm : mapNonneg m) :
    mapNonneg (ensureKey m pos) := by
  unfold ensureKey
  by_cases h : (lookupPos m pos).isSome
  · rw [if_pos h]; exact hm
  · rw [if_neg h]
    intro e he
    rcases List.mem_append.mp he with he' | he'
    · exact hm e he'
    · obtain rfl : e = (pos, initProbs) := by simpa using he'
      constructor <;> norm_num [initProbs]

theorem mapNonneg_setField (m : ModMap) (pos : Int) (f : Probs → Probs)
    (hm : mapNonneg m)
    (hf : ∀ p : Probs, 0 ≤ p.brdu → 0 ≤ p.edu → 0 ≤ (f p).brdu ∧ 0 ≤ (f p).edu) :
    mapNonneg (setField m pos f) := by
  intro e he
  obtain ⟨a, ha, rfl⟩ := List.mem_map.mp he
  by_cases hk : a.1 = pos
  · rw [if_pos hk]
    exact hf a.2 (hm a ha).1 (hm a ha).2
  · rw [if_neg hk]
    exact hm a ha

theorem mapNonneg_recordML (kind : String) (m : ModMap) (pos : Int) (prob : ℚ)
    (hm : mapNonneg m) (hp : 0 ≤ prob) : mapNonneg (recordML kind m pos prob) := by
  unfold recordML
  by_cases hb : kind = "N+b?"
  · rw [if_pos hb]
    exact mapNonneg_setField _ pos _ (mapNonneg_ensureKey m pos hm)
      (fun p h1 h2 => ⟨hp, h2⟩)
  · rw [if_neg hb]
    by_cases he : kind = "N+e?"
    · rw [if_pos he]
      exact mapNonneg_setField _ pos _ (mapNonneg_ensureKey m pos hm)
        (fun p h1 h2 => ⟨h1, hp⟩)
    · rw [if_neg he]
      exact mapNonneg_ensureKey m pos hm

theorem mapNonneg_stepGroup (kind : String) :
    ∀ (rels : List Int) (off : Int) (m : ModMap) (ml : List ℕ) (m' : ModMap)
      (ml' : List ℕ), mapNonneg m → stepGroup kind rels off m ml = some (m', ml') →
      mapNonneg m' := by
  intro rels
  induction rels with
  | nil =>
    intro off m ml m' ml' hm h
    rw [stepGroup] at h
    obtain ⟨h1, -⟩ : m = m' ∧ ml = ml' := by simpa using h
    exact h1 ▸ hm
  | cons r rs ih =>
    intro off m ml m' ml' hm h
    cases ml with
    | nil => rw [stepGroup] at h; exact absurd h (by simp)
    | cons b mlrest =>
      rw [stepGroup] at h
      exact ih _ _ _ _ _ (mapNonneg_recordML kind m _ _ hm (by positivity)) h

theorem mapNonneg_parseGroupsAux :
    ∀ (gs : List (String × List Int)) (m : ModMap) (ml : List ℕ) (m' : ModMap)
      (ml' : List ℕ), mapNonneg m → parseGroupsAux gs m ml = some (m', ml') →
      mapNonneg m' := by
  intro gs
  induction gs with
  | nil =>
    intro m ml m' ml' hm h
    rw [parseGroupsAux] at h
    obtain ⟨h1, -⟩ : m = m' ∧ ml = ml' := by simpa using h
    exact h1 ▸ hm
  | cons g rest ih =>
    intro m ml m' ml' hm h
    obtain ⟨kind, rels⟩ := g
    rw [parseGroupsAux] at h
    rcases hs : stepGroup kind rels 0 m ml with _ | p
    · rw [hs] at h; exact absurd h (by simp)
    · rw [hs] at h
      exact ih _ _ _ _ (mapNonneg_stepGroup kind rels 0 m ml p.1 p.2 hm hs) h

theorem mapNonneg_recomputeNone (m : ModMap) (hm : mapNonneg m) :
    mapNonneg (recomputeNone m) := by
  intro e he
  obtain ⟨a, ha, rfl⟩ := List.mem_map.mp he
  exact hm a ha

theorem parse_nonneg (entries : List (String × List Int)) (ML : List ℕ) (m : ModMap)
    (h : parse_ml_mm entries ML = some m) : mapNonneg m := by
  unfold parse_ml_mm at h
  rcases hp : parseGroupsAux entries [] ML with _ | p
  · rw [hp] at h; simp at h
  · rw [hp] at h
    obtain rfl : recomputeNone p.1 = m := by simpa using h
    exact mapNonneg_recomputeNone p.1
      (mapNonneg_parseGroupsAux entries [] ML p.1 p.2 (by intro e he; simp at he) hp)

theorem stepGroup_append (kind : String) :
    ∀ (rels : List Int) (off : Int) (m : ModMap) (b1 rest : List ℕ),
      rels.length = b1.length →
      stepGroup kind rels off m (b1 ++ rest) =
        (stepGroup kind rels off m b1).bind (fun p => some (p.1, rest)) := by
  intro rels
  induction rels with
  | nil =>
    intro off m b1 rest hlen
    obtain rfl : b1 = [] := by
      cases b1 with
      | nil => rfl
      | cons x xs => simp at hlen
    rfl
  | cons r rs ih =>
    intro off m b1 rest hlen
    cases b1 with
    | nil => simp at hlen
    | cons b b1' =>
      rw [List.cons_append, stepGroup, stepGroup]
      exact ih _ _ b1' rest (by simpa using hlen)

theorem parseGroupsAux_append :
    ∀ (gs : List (String × List Int)) (m : ModMap) (bytes rest : List ℕ),
      totalPositions gs = bytes.length →
      parseGroupsAux gs m (bytes ++ rest) =
        (parseGroupsAux gs m bytes).bind (fun p => some (p.1, rest)) := by
  intro gs
  induction gs with
  | nil =>
    intro m bytes rest hlen
    obtain rfl : bytes = [] := by
      cases bytes with
      | nil => rfl
      | cons x xs => simp [totalPositions] at hlen
    rfl
  | cons g gs' ih =>
    intro m bytes rest hlen
    obtain ⟨kind, rels⟩ := g
    have hlen' : rels.length + totalPositions gs' = bytes.length := by
      simpa [totalPositions] using hlen
    have hsplit : bytes = bytes.take rels.length ++ bytes.drop rels.length :=
      (List.take_append_drop _ _).symm
    have htake : (bytes.take rels.length).length = rels.length := by
      rw [List.length_take]
      omega
    rw [parseGroupsAux, parseGroupsAux]
    rw [hsplit, List.append_assoc]
    rw [stepGroup_append kind rels 0 m _ _ htake.symm,
        stepGroup_append kind rels 0 m _ _ htake.symm]
    rcases hs : stepGroup kind rels 0 m (bytes.take rels.length) with _ | p
    · rfl
    · show parseGroupsAux gs' p.1 (bytes.drop rels.length ++ rest) = _
      rw [ih p.1 (bytes.drop rels.length) rest (by rw [List.length_drop]; omega)]
      rfl

theorem parseGroupsAux_snd :
    ∀ (gs : List (String × List Int)) (m : ModMap) (ml : List ℕ) (m' : ModMap)
      (ml' : List ℕ), parseGroupsAux gs m ml = some (m', ml') →
      ml' = ml.drop (totalPositions gs) := by
  intro gs
  induction gs with
  | nil =>
    intro m ml m' ml' h
    rw [parseGroupsAux] at h
    obtain ⟨-, h2⟩ : m = m' ∧ ml = ml' := by simpa using h
    simp [totalPositions, h2]
  | cons g rest ih =>
    intro m ml m' ml' h
    obtain ⟨kind, rels⟩ := g
    rw [parseGroupsAux] at h
    rcases hs : stepGroup kind rels 0 m ml with _ | p
    · rw [hs] at h; exact absurd h (by simp)
    · rw [hs] at h
      have h1 := stepGroup_some_snd kind rels 0 m ml p.1 p.2 (by rw [hs])
      have h2 := ih p.1 p.2 m' ml' h
      rw [h2, h1, List.drop_drop]
      congr 1

/-! Accumulator-level comparison of the window statistics of two related maps. -/

theorem windowStats_fold_rel (m1 m2 : ModMap) (hrel : mapExtends m1 m2) :
    ∀ (ps : List Int) (a1 a2 : ℚ × ℚ × ℕ),
      a2.1 = a1.1 → a2.2.1 = a1.2.1 → a1.2.2 ≤ a2.2.2 →
      (ps.foldl (fun acc pos =>
          match lookupPos m2 pos with
          | some p => (acc.1 + p.brdu, acc.2.1 + p.edu, acc.2.2 + 1)
          | none => acc) a2).1 = (ps.foldl (fun acc pos =>
          match lookupPos m1 pos with
          | some p => (acc.1 + p.brdu, acc.2.1 + p.edu, acc.2.2 + 1)
          | none => acc) a1).1 ∧
      (ps.foldl (fun acc pos =>
          match lookupPos m2 pos with
          | some p => (acc.1 + p.brdu, acc.2.1 + p.edu, acc.2.2 + 1)
          | none => acc) a2).2.1 = (ps.foldl (fun acc pos =>
          match lookupPos m1 pos with
          | some p => (acc.1 + p.brdu, acc.2.1 + p.edu, acc.2.2 + 1)
          | none => acc) a1).2.1 ∧
      (ps.foldl (fun acc pos =>
          match lookupPos m1 pos with
          | some p => (acc.1 + p.brdu, acc.2.1 + p.edu, acc.2.2 + 1)
          | none => acc) a1).2.2 ≤ (ps.foldl (fun acc pos =>
          match lookupPos m2 pos with
          | some p => (acc.1 + p.brdu, acc.2.1 + p.edu, acc.2.2 + 1)
          | none => acc) a2).2.2 := by
  intro ps
  induction ps with
  | nil =>
    intro a1 a2 h1 h2 h3
    exact ⟨h1, h2, h3⟩
  | cons pos t ih =>
    intro a1 a2 h1 h2 h3
    simp only [List.foldl_cons]
    rcases hrel pos with h | ⟨hnone, hinit⟩
    · rw [h]
      rcases hl : lookupPos m1 pos with _ | p
      · exact ih a1 a2 h1 h2 h3
      · exact ih _ _ (by rw [h1]) (by rw [h2]) (show a1.2.2 + 1 ≤ a2.2.2 + 1 by omega)
    · rw [hnone, hinit]
      refine ih a1 (a2.1 + initProbs.brdu, a2.2.1 + initProbs.edu, a2.2.2 + 1) ?_ ?_ ?_
      · rw [h1]
        norm_num [initProbs]
      · rw [h2]
        norm_num [initProbs]
      · show a1.2.2 ≤ a2.2.2 + 1
        omega

theorem windowStats_rel (m1 m2 : ModMap) (hrel : mapExtends m1 m2) (ws we : Int) :
    (windowStats m2 ws we).1 = (windowStats m1 ws we).1 ∧
    (windowStats m2 ws we).2.1 = (windowStats m1 ws we).2.1 ∧
    (windowStats m1 ws we).2.2 ≤ (windowStats m2 ws we).2.2 := by
  unfold windowStats
  exact windowStats_fold_rel m1 m2 hrel (pyRange ws we 1) (0, 0, 0) (0, 0, 0) rfl rfl le_rfl

theorem windowStats_count_char (m : ModMap) :
    ∀ (ps : List Int) (acc : ℚ × ℚ × ℕ),
      (ps.foldl (fun acc pos =>
          match lookupPos m pos with
          | some p => (acc.1 + p.brdu, acc.2.1 + p.edu, acc.2.2 + 1)
          | none => acc) acc).2.2 =
        acc.2.2 + (ps.filter (fun p => (lookupPos m p).isSome)).length := by
  intro ps
  induction ps with
  | nil => intro acc; simp
  | cons pos t ih =>
    intro acc
    simp only [List.foldl_cons]
    rcases hl : lookupPos m pos with _ | p
    · rw [List.filter_cons_of_neg (by simp [hl])]
      exact ih acc
    · rw [List.filter_cons_of_pos (by simp [hl])]
      rw [ih _]
      simp only [List.length_cons]
      omega

theorem mem_pyRange_of_bounds (ws we pos : Int) (h1 : ws ≤ pos) (h2 : pos < we) :
    pos ∈ pyRange ws we 1 := by
  refine (mem_pyRange ws we 1 pos (by omega)).mpr ⟨(pos - ws).toNat, ?_, h2⟩
  omega

theorem windowStats_count_pos (m : ModMap) (ws we pos : Int)
    (h1 : ws ≤ pos) (h2 : pos < we) (h3 : (lookupPos m pos).isSome) :
    0 < (windowStats m ws we).2.2 := by
  unfold windowStats
  rw [windowStats_count_char m]
  have hmem : pos ∈ (pyRange ws we 1).filter (fun p => (lookupPos m p).isSome) :=
    List.mem_filter.mpr ⟨mem_pyRange_of_bounds ws we pos h1 h2, h3⟩
  have := List.length_pos.mpr (List.ne_nil_of_mem hmem)
  omega

theorem windowStats_zero_sums (m : ModMap) (ws we : Int)
    (h : (windowStats m ws we).2.2 = 0) :
    (windowStats m ws we).1 = 0 ∧ (windowStats m ws we).2.1 = 0 := by
  have hchar := windowStats_count_char m (pyRange ws we 1) (0, 0, 0)
  unfold windowStats at h
  rw [hchar] at h
  have hnil : (pyRange ws we 1).filter (fun p => (lookupPos m p).isSome) = [] := by
    have : ((pyRange ws we 1).filter (fun p => (lookupPos m p).isSome)).length = 0 := by
      omega
    exact List.length_eq_zero.mp this
  have hall : ∀ pos ∈ pyRange ws we 1, lookupPos m pos = none := by
    intro pos hp
    have h4 := List.filter_eq_nil_iff.mp hnil pos hp
    rcases hcase : lookupPos m pos with _ | v
    · rfl
    · rw [hcase] at h4
      simp at h4
  have := stats_foldl_none m (pyRange ws we 1) (0, 0, 0) hall
  unfold windowStats
  rw [this]
  exact ⟨rfl, rfl⟩

theorem windowStats_nonneg (m : ModMap) (hm : mapNonneg m) (ws we : Int) :
    0 ≤ (windowStats m ws we).1 ∧ 0 ≤ (windowStats m ws we).2.1 := by
  unfold windowStats
  have hgen : ∀ (ps : List Int) (acc : ℚ × ℚ × ℕ), 0 ≤ acc.1 → 0 ≤ acc.2.1 →
      0 ≤ (ps.foldl (fun acc pos =>
          match lookupPos m pos with
          | some p => (acc.1 + p.brdu, acc.2.1 + p.edu, acc.2.2 + 1)
          | none => acc) acc).1 ∧
      0 ≤ (ps.foldl (fun acc pos =>
          match lookupPos m pos with
          | some p => (acc.1 + p.brdu, acc.2.1 + p.edu, acc.2.2 + 1)
          | none => acc) acc).2.1 := by
    intro ps
    induction ps with
    | nil => intro acc h1 h2; exact ⟨h1, h2⟩
    | cons pos t ih =>
      intro acc h1 h2
      simp only [List.foldl_cons]
      rcases hl : lookupPos m pos with _ | p
      · exact ih acc h1 h2
      · have hpm := hm (pos, p) (lookupPos_mem m pos p hl)
        exact ih _ (by simp only []; linarith [hpm.1]) (by simp only []; linarith [hpm.2])
  exact hgen (pyRange ws we 1) (0, 0, 0) le_rfl le_rfl

theorem parseGroupsAux_groups :
    ∀ (gs1 gs2 : List (String × List Int)) (m : ModMap) (ml : List ℕ),
      parseGroupsAux (gs1 ++ gs2) m ml =
        (parseGroupsAux gs1 m ml).bind (fun p => parseGroupsAux gs2 p.1 p.2) := by
  intro gs1
  induction gs1 with
  | nil => intro gs2 m ml; rfl
  | cons g rest ih =>
    intro gs2 m ml
    obtain ⟨kind, rels⟩ := g
    rw [List.cons_append, parseGroupsAux, parseGroupsAux]
    rcases hs : stepGroup kind rels 0 m ml with _ | p
    · rfl
    · obtain ⟨m', ml'⟩ := p
      exact ih gs2 m' ml'

theorem filter_length_le_of_imp {α : Type} (p q : α → Bool) :
    ∀ (l : List α), (∀ x ∈ l, p x = true → q x = true) →
      (l.filter p).length ≤ (l.filter q).length := by
  intro l
  induction l with
  | nil => intro _; simp
  | cons a t ih =>
    intro hmono
    have ht : ∀ x ∈ t, p x = true → q x = true :=
      fun x hx => hmono x (List.mem_cons_of_mem a hx)
    cases hpa : p a with
    | false =>
      rw [List.filter_cons_of_neg (by simp [hpa])]
      cases hqa : q a with
      | false =>
        rw [List.filter_cons_of_neg (by simp [hqa])]
        exact ih ht
      | true =>
        rw [List.filter_cons_of_pos (by simp [hqa])]
        exact le_trans (ih ht) (by simp)
    | true =>
      have hqa : q a = true := hmono a (by simp) hpa
      rw [List.filter_cons_of_pos (by simp [hpa]), List.filter_cons_of_pos (by simp [hqa])]
      simpa using ih ht

theorem filter_length_lt_of_imp {α : Type} (p q : α → Bool) :
    ∀ (l : List α), (∀ x ∈ l, p x = true → q x = true) →
      ∀ x ∈ l, p x = false → q x = true →
      (l.filter p).length < (l.filter q).length := by
  intro l
  induction l with
  | nil => intro _ x hx; simp at hx
  | cons a t ih =>
    intro hmono x hx hpx hqx
    have ht : ∀ y ∈ t, p y = true → q y = true :=
      fun y hy => hmono y (List.mem_cons_of_mem a hy)
    rcases List.mem_cons.mp hx with rfl | hxt
    · rw [List.filter_cons_of_neg (by simp [hpx]), List.filter_cons_of_pos (by simp [hqx])]
      simp only [List.length_cons]
      exact Nat.lt_succ_of_le (filter_length_le_of_imp p q t ht)
    · cases hpa : p a with
      | false =>
        rw [List.filter_cons_of_neg (by simp [hpa])]
        cases hqa : q a with
        | false =>
          rw [List.filter_cons_of_neg (by simp [hqa])]
          exact ih ht x hxt hpx hqx
        | true =>
          rw [List.filter_cons_of_pos (by simp [hqa])]
          exact lt_trans (ih ht x hxt hpx hqx) (by simp)
      | true =>
        have hqa : q a = true := hmono a (by simp) hpa
        rw [List.filter_cons_of_pos (by simp [hpa]), List.filter_cons_of_pos (by simp [hqa])]
        simp only [List.length_cons]
        exact Nat.succ_lt_succ (ih ht x hxt hpx hqx)

theorem windowStats_count_lt (m1 m2 : ModMap) (hrel : mapExtends m1 m2) (ws we o : Int)
    (h1 : ws ≤ o) (h2 : o < we) (hn : lookupPos m1 o = none)
    (hs : (lookupPos m2 o).isSome = true) :
    (windowStats m1 ws we).2.2 < (windowStats m2 ws we).2.2 := by
  unfold windowStats
  rw [windowStats_count_char m1, windowStats_count_char m2]
  have hmono : ∀ x ∈ pyRange ws we 1,
      (lookupPos m1 x).isSome = true → (lookupPos m2 x).isSome = true := by
    intro x _ hx
    rcases hrel x with h | ⟨_, hsa⟩
    · rw [h]; exact hx
    · rw [hsa]; rfl
  have hlt := filter_length_lt_of_imp (fun x => (lookupPos m1 x).isSome)
    (fun x => (lookupPos m2 x).isSome) (pyRange ws we 1) hmono o
    (mem_pyRange_of_bounds ws we o h1 h2) (by simp [hn]) hs
  simpa using hlt

theorem divQ_le (s c1 c2 : ℚ) (hs : 0 ≤ s) (h1 : 0 < c1) (h12 : c1 ≤ c2) :
    s / c2 ≤ s / c1 := by
  have h2 : 0 < c2 := lt_of_lt_of_le h1 h12
  rw [div_le_div_iff h2 h1]
  exact mul_le_mul_of_nonneg_left h12 hs

theorem divQ_lt (s c1 c2 : ℚ) (hs : 0 < s) (h1 : 0 < c1) (h12 : c1 < c2) :
    s / c2 < s / c1 := by
  have h2 : 0 < c2 := lt_trans h1 h12
  rw [div_lt_div_iff h2 h1]
  exact mul_lt_mul_of_pos_left h12 hs

/-- **C9.** In `parse_ml_mm`, a tag group whose kind is neither `"N+b?"` nor
`"N+e?"` still inserts each of its positions into the decoded map with the
untouched default entry `{BrdU: 0, EdU: 0, None: 1}` unless a recognized group
also records that position: compared to decoding without that group (the same
`MM` groups and the same `ML` bytes minus the group's slice), every key decodes
identically or to the default entry, and each of the group's offsets is
present.  Consequently, in the per-window statistics of
`compute_sliding_windows` the channel sums are unchanged while the position
count `t_count` can only grow; a window covering one of the group's offsets
has a positive count; both channel frequencies are weakly lowered, and
strictly lowered whenever the window covers an offset no recognized group
records and the channel's sum is positive. -/
theorem claim_C9 (pre post : List (String × List Int)) (kind : String) (rels : List Int)
    (A B C : List ℕ) (hkb : kind ≠ "N+b?") (hke : kind ≠ "N+e?")
    (hA : A.length = totalPositions pre) (hB : B.length = rels.length)
    (hC : totalPositions post ≤ C.length) :
    ∃ mWithout mWith,
      parse_ml_mm (pre ++ post) (A ++ C) = some mWithout ∧
      parse_ml_mm (pre ++ (kind, rels) :: post) (A ++ (B ++ C)) = some mWith ∧
      (∀ o ∈ groupOffsets 0 rels, (lookupPos mWith o).isSome) ∧
      (∀ k, lookupPos mWith k = lookupPos mWithout k ∨
        (lookupPos mWithout k = none ∧ lookupPos mWith k = some initProbs)) ∧
      (∀ ws we : Int,
        (windowStats mWith ws we).1 = (windowStats mWithout ws we).1 ∧
        (windowStats mWith ws we).2.1 = (windowStats mWithout ws we).2.1 ∧
        (windowStats mWithout ws we).2.2 ≤ (windowStats mWith ws we).2.2 ∧
        (∀ o ∈ groupOffsets 0 rels, ws ≤ o → o < we →
          0 < (windowStats mWith ws we).2.2) ∧
        ((if 0 < (windowStats mWith ws we).2.2 then
            (windowStats mWith ws we).1 / ((windowStats mWith ws we).2.2 : ℚ) else 0) ≤
          (if 0 < (windowStats mWithout ws we).2.2 then
            (windowStats mWithout ws we).1 / ((windowStats mWithout ws we).2.2 : ℚ) else 0)) ∧
        ((if 0 < (windowStats mWith ws we).2.2 then
            (windowStats mWith ws we).2.1 / ((windowStats mWith ws we).2.2 : ℚ) else 0) ≤
          (if 0 < (windowStats mWithout ws we).2.2 then
            (windowStats mWithout ws we).2.1 / ((windowStats mWithout ws we).2.2 : ℚ) else 0)) ∧
        (∀ o ∈ groupOffsets 0 rels, ws ≤ o → o < we → lookupPos mWithout o = none →
          (windowStats mWithout ws we).2.2 < (windowStats mWith ws we).2.2 ∧
          (0 < (windowStats mWithout ws we).1 →
            (windowStats mWith ws we).1 / ((windowStats mWith ws we).2.2 : ℚ) <
              (windowStats mWithout ws we).1 / ((windowStats mWithout ws we).2.2 : ℚ)) ∧
          (0 < (windowStats mWithout ws we).2.1 →
            (windowStats mWith ws we).2.1 / ((windowStats mWith ws we).2.2 : ℚ) <
              (windowStats mWithout ws we).2.1 /
                ((windowStats mWithout ws we).2.2 : ℚ)))) := by
  rcases hpre : parseGroupsAux pre [] A with _ | ⟨q1, q2⟩
  · exfalso
    have := (parseGroupsAux_none_iff pre [] A).mp hpre
    omega
  rcases hg : stepGroup kind rels 0 q1 B with _ | ⟨g1, g2⟩
  · exfalso
    have := (stepGroup_none_iff kind rels 0 q1 B).mp hg
    omega
  rcases hpost : parseGroupsAux post q1 C with _ | ⟨w1, w2⟩
  · exfalso
    have := (parseGroupsAux_none_iff post q1 C).mp hpost
    omega
  have hext0 : mapExtends q1 g1 :=
    mapExtends_stepGroup_unknown kind hkb hke rels 0 q1 q1 B g1 g2 (mapExtends_refl q1) hg
  obtain ⟨n2, hpost2, hext⟩ :=
    mapExtends_parseGroupsAux post q1 g1 C w1 w2 hext0 hpost
  have hwithout : parse_ml_mm (pre ++ post) (A ++ C) = some (recomputeNone w1) := by
    unfold parse_ml_mm
    rw [parseGroupsAux_groups, parseGroupsAux_append pre [] A C hA.symm, hpre]
    show (parseGroupsAux post q1 C).map (fun r => recomputeNone r.1) = some (recomputeNone w1)
    rw [hpost]
    rfl
  have hwith : parse_ml_mm (pre ++ (kind, rels) :: post) (A ++ (B ++ C)) =
      some (recomputeNone n2) := by
    unfold parse_ml_mm
    rw [parseGroupsAux_groups, parseGroupsAux_append pre [] A (B ++ C) hA.symm, hpre]
    show (parseGroupsAux ((kind, rels) :: post) q1 (B ++ C)).map (fun r => recomputeNone r.1) =
      some (recomputeNone n2)
    rw [parseGroupsAux, stepGroup_append kind rels 0 q1 B C hB.symm, hg]
    show (parseGroupsAux post g1 C).map (fun r => recomputeNone r.1) = some (recomputeNone n2)
    rw [hpost2]
    rfl
  have hoff : ∀ o ∈ groupOffsets 0 rels, (lookupPos (recomputeNone n2) o).isSome := by
    intro o ho
    exact lookupPos_isSome_recomputeNone n2 o
      (parseGroupsAux_isSome_mono post g1 C n2 w2 o hpost2
        (stepGroup_offsets kind rels 0 q1 B g1 g2 hg o ho))
  have hrelF : mapExtends (recomputeNone w1) (recomputeNone n2) :=
    mapExtends_recomputeNone w1 n2 hext
  have hnn : mapNonneg (recomputeNone w1) := parse_nonneg (pre ++ post) (A ++ C) _ hwithout
  refine ⟨recomputeNone w1, recomputeNone n2, hwithout, hwith, hoff, hrelF, ?_⟩
  intro ws we
  obtain ⟨hs1, hs2, hcle⟩ := windowStats_rel (recomputeNone w1) (recomputeNone n2) hrelF ws we
  have hsum := windowStats_nonneg (recomputeNone w1) hnn ws we
  refine ⟨hs1, hs2, hcle, ?_, ?_, ?_, ?_⟩
  · intro o ho h1 h2
    exact windowStats_count_pos (recomputeNone n2) ws we o h1 h2 (hoff o ho)
  · by_cases hcO : 0 < (windowStats (recomputeNone w1) ws we).2.2
    · have hcW : 0 < (windowStats (recomputeNone n2) ws we).2.2 := lt_of_lt_of_le hcO hcle
      rw [if_pos hcW, if_pos hcO, hs1]
      exact divQ_le _ _ _ hsum.1 (by exact_mod_cast hcO) (by exact_mod_cast hcle)
    · have hc0 : (windowStats (recomputeNone w1) ws we).2.2 = 0 := by omega
      have hz := windowStats_zero_sums (recomputeNone w1) ws we hc0
      rw [if_neg hcO]
      by_cases hcW : 0 < (windowStats (recomputeNone n2) ws we).2.2
      · rw [if_pos hcW, hs1, hz.1]
        simp
      · rw [if_neg hcW]
  · by_cases hcO : 0 < (windowStats (recomputeNone w1) ws we).2.2
    · have hcW : 0 < (windowStats (recomputeNone n2) ws we).2.2 := lt_of_lt_of_le hcO hcle
      rw [if_pos hcW, if_pos hcO, hs2]
      exact divQ_le _ _ _ hsum.2 (by exact_mod_cast hcO) (by exact_mod_cast hcle)
    · have hc0 : (windowStats (recomputeNone w1) ws we).2.2 = 0 := by omega
      have hz := windowStats_zero_sums (recomputeNone w1) ws we hc0
      rw [if_neg hcO]
      by_cases hcW : 0 < (windowStats (recomputeNone n2) ws we).2.2
      · rw [if_pos hcW, hs2, hz.2]
        simp
      · rw [if_neg hcW]
  · intro o ho h1 h2 hnone
    have hcnt := windowStats_count_lt (recomputeNone w1) (recomputeNone n2) hrelF ws we o
      h1 h2 hnone (hoff o ho)
    refine ⟨hcnt, ?_, ?_⟩
    · intro hspos
      have hcO : 0 < (windowStats (recomputeNone w1) ws we).2.2 := by
        by_contra hc
        have hc0 : (windowStats (recomputeNone w1) ws we).2.2 = 0 := by omega
        have hz := windowStats_zero_sums (recomputeNone w1) ws we hc0
        rw [hz.1] at hspos
        exact absurd hspos (by norm_num)
      rw [hs1]
      exact divQ_lt _ _ _ hspos (by exact_mod_cast hcO) (by exact_mod_cast hcnt)
    · intro hspos
      have hcO : 0 < (windowStats (recomputeNone w1) ws we).2.2 := by
        by_contra hc
        have hc0 : (windowStats (recomputeNone w1) ws we).2.2 = 0 := by omega
        have hz := windowStats_zero_sums (recomputeNone w1) ws we hc0
        rw [hz.2] at hspos
        exact absurd hspos (by norm_num)
      rw [hs2]
      exact divQ_lt _ _ _ hspos (by exact_mod_cast hcO) (by exact_mod_cast hcnt)

theorem claim_C9_witness :
    ∃ mWithout mWith,
      parse_ml_mm ([("N+b?", [0])] ++ []) ([255] ++ []) = some mWithout ∧
      parse_ml_mm ([("N+b?", [0])] ++ ("N+m?", [0]) :: []) ([255] ++ ([7] ++ [])) =
        some mWith ∧
      (∀ o ∈ groupOffsets 0 [0], (lookupPos mWith o).isSome) ∧
      (∀ k, lookupPos mWith k = lookupPos mWithout k ∨
        (lookupPos mWithout k = none ∧ lookupPos mWith k = some initProbs)) := by
  obtain ⟨m1, m2, e1, e2, e3, e4, -⟩ :=
    claim_C9 [("N+b?", [0])] [] "N+m?" [0] [255] [7] []
      (by decide) (by decide) (by decide) (by decide) (by decide)
  exact ⟨m1, m2, e1, e2, e3, e4⟩
